import Mathlib

/-!
# MPSolve: the secular-equation engine of `src/libmps/secular-ga.c`

A shallow embedding of the Ehrlich–Aberth packet iteration, the coefficient
regeneration and the stop predicate of MPSolve's secular solver.

Conventions of the embedding.

* The three complex kinds (`cplx_t`, `cdpe_t`, `mpc_t`) are embedded in one field `K`
  with exact arithmetic (division by zero yields zero, as everywhere in Mathlib), and the
  two radius kinds (`double`, `rdpe_t`) in one linearly ordered field `R`. The divisors
  that the source does not test for zero are named by `regenerate_row_checked` (the
  differences `b_i - b_j` of a regeneration) and `aberth_divisor` (the divisor of the Aberth
  correction).
* C arrays are functions `Nat → _`; only the indices below `n` are ever read or written.
* The degree `n` (`s->n`, which is also `sec->n`) is fixed for the lifetime of a solve, so
  it is an index of the state type rather than a mutable field.
* The routines of MPSolve that live outside `secular-ga.c` are the fields of
  `Collaborators`; every call of one of them is recorded in the ghost field `trace`.
-/

namespace MPSolve

/-- Modelled from the spec: the enumeration `mps_phase` is declared outside
`secular-ga.c`; the data model of the specification gives a phase as one of Float, Dpe
and Mp, the three values the `switch` statements of the source dispatch on. -/
inductive mps_phase where
  | float_phase
  | dpe_phase
  | mp_phase
  deriving DecidableEq, Repr

/-- One entry of the ghost trace: a call of a routine defined outside `secular-ga.c`,
or the advisory message of an aborted regeneration. -/
inductive Call where
  | fnewton (i : Nat)
  | faberth (i : Nat)
  | dnewton (i : Nat)
  | daberth (i : Nat)
  | mnewton (i : Nat)
  | maberth (i : Nat)
  | fstart
  | dstart
  | mstart
  | set_radii
  | cluster_reset
  | switch_phase (p : mps_phase)
  | raise_precision
  | debug_reusing_old
  deriving DecidableEq, Repr

/-- The coefficients `a_i`, `b_i` of the secular equation in the three kinds
(`mps_secular_equation`, reached through `s->user_data`). -/
structure mps_secular_equation (K : Type) where
  afpc : Nat → K
  bfpc : Nat → K
  adpc : Nat → K
  bdpc : Nat → K
  ampc : Nat → K
  bmpc : Nat → K

/-- The solver state (`mps_status`) for degree `n`. The field `other` stands for every
field of the C structure that `secular-ga.c` only passes on (working precision, `eps_out`,
cluster data); `trace` is a ghost field. -/
structure mps_status (K R X : Type) (n : Nat) where
  lastphase : mps_phase
  prec_out : Int
  again : Nat → Bool
  froot : Nat → K
  droot : Nat → K
  mroot : Nat → K
  frad : Nat → R
  drad : Nat → R
  sec : mps_secular_equation K
  other : X
  trace : List Call

/-- The degree `s->n`. -/
def mps_status.n {K R X : Type} {n : Nat} (_ : mps_status K R X n) : Nat := n

/-- The routines called by `secular-ga.c` and defined elsewhere in MPSolve or in the C
library, taken as parameters. A Newton evaluator receives the whole state and the index
of the root whose approximation, radius and flag it is handed, and gives back the state
it leaves together with the correction. An Aberth routine only computes its sum (the
interface of the specification gives it the single output `out_sum`). `cplx_mod` is the
modulus of the complex kinds, and `pow10 e` is the `double` value of `pow(10, e)`, which
may underflow to zero. -/
structure Collaborators (K R X : Type) (n : Nat) where
  mps_secular_fnewton : mps_status K R X n → Nat → mps_status K R X n × K
  mps_secular_dnewton : mps_status K R X n → Nat → mps_status K R X n × K
  mps_secular_mnewton : mps_status K R X n → Nat → mps_status K R X n × K
  mps_faberth : mps_status K R X n → Nat → K
  mps_daberth : mps_status K R X n → Nat → K
  mps_maberth : mps_status K R X n → Nat → K
  mps_secular_fstart : mps_status K R X n → mps_status K R X n
  mps_secular_dstart : mps_status K R X n → mps_status K R X n
  mps_secular_mstart : mps_status K R X n → mps_status K R X n
  mps_secular_set_radii : mps_status K R X n → mps_status K R X n
  mps_secular_switch_phase : mps_status K R X n → mps_phase → mps_status K R X n
  mps_secular_raise_precision : mps_status K R X n → mps_status K R X n
  mps_cluster_reset : mps_status K R X n → mps_status K R X n
  cplx_mod : K → R
  pow10 : Int → R

section Defs

variable {K R X : Type} [Field K] [DecidableEq K] [LinearOrderedField R] {n : Nat}

/-- Call of a state-transforming collaborator: the call is appended to the trace of the
caller, whatever the collaborator left in the ghost field. -/
def call (ev : Call) (f : mps_status K R X n → mps_status K R X n)
    (s : mps_status K R X n) : mps_status K R X n :=
  { f s with trace := s.trace ++ [ev] }

/-- Call of a Newton evaluator, recorded in the trace. -/
def call_newton (ev : Call) (f : mps_status K R X n → Nat → mps_status K R X n × K)
    (s : mps_status K R X n) (i : Nat) : mps_status K R X n × K :=
  ({ (f s i).1 with trace := s.trace ++ [ev] }, (f s i).2)

/-- Modelled from the spec: the routine `rdpe_set_2dl` of the DPE library is defined
outside `secular-ga.c`; the specification gives the target it computes from `1.0` and
`-prec_out` as `2^(-prec_out)`, so `rdpe_set_2dl (d, l)` is the value `d * 2^l`. -/
def rdpe_set_2dl (d : R) (l : Int) : R := d * (2 : R) ^ l

/-! ## Packets of Aberth iterations -/

/-- A loop `for (i = 0; i < k; i++) body`: the state after its `k` passes. -/
def for_loop {σ : Type} (body : Nat → σ → σ) : Nat → σ → σ
  | 0, st => st
  | k + 1, st => body k (for_loop body k st)

/-- The state and the local counters of a packet (`mps_secular_ga_?iterate`). -/
structure Packet (K R X : Type) (n : Nat) where
  s : mps_status K R X n
  computed_roots : Nat
  iterations : Nat

/-- The body of the `while` loop of a packet: `iterations++`, then the sweep
`for (i = 0; i < s->n; i++)` over the roots. -/
def sweep (body : Nat → Packet K R X n → Packet K R X n) (p : Packet K R X n) :
    Packet K R X n :=
  for_loop body n { p with iterations := p.iterations + 1 }

/-- The loop `while (computed_roots < s->n && iterations < bound)` of a packet. The first
argument bounds the number of rounds unfolded; the loop leaves by its own condition
within `bound` rounds (`while_loop_exit`). -/
def while_loop (body : Nat → Packet K R X n → Packet K R X n) (bound : Int) :
    Nat → Packet K R X n → Packet K R X n
  | 0, p => p
  | fuel + 1, p =>
    if p.computed_roots < n ∧ (p.iterations : Int) < bound then
      while_loop body bound fuel (sweep body p)
    else p

/-- The body of the sweep of `mps_secular_ga_fiterate` for root `i`. -/
def fiterate_body (c : Collaborators K R X n) (i : Nat) (p : Packet K R X n) :
    Packet K R X n :=
  if p.s.again i then
    let r := call_newton (Call.fnewton i) c.mps_secular_fnewton p.s i
    let s1 := r.1
    let corr := r.2
    let abcorr := c.mps_faberth s1 i
    let abcorr := abcorr * corr
    let abcorr := 1 - abcorr
    let abcorr := corr / abcorr
    let modcorr := c.cplx_mod abcorr
    let s2 : mps_status K R X n :=
      { s1 with
        froot := Function.update s1.froot i (s1.froot i - abcorr)
        frad := Function.update s1.frad i (s1.frad i + modcorr)
        trace := s1.trace ++ [Call.faberth i] }
    { p with
      s := s2
      computed_roots := if s2.again i then p.computed_roots else p.computed_roots + 1 }
  else p

/-- The body of the sweep of `mps_secular_ga_diterate` for root `i`. -/
def diterate_body (c : Collaborators K R X n) (i : Nat) (p : Packet K R X n) :
    Packet K R X n :=
  if p.s.again i then
    let r := call_newton (Call.dnewton i) c.mps_secular_dnewton p.s i
    let s1 := r.1
    let corr := r.2
    let abcorr := c.mps_daberth s1 i
    let abcorr := abcorr * corr
    let abcorr := 1 - abcorr
    let abcorr := corr / abcorr
    let modcorr := c.cplx_mod abcorr
    let s2 : mps_status K R X n :=
      { s1 with
        droot := Function.update s1.droot i (s1.droot i - abcorr)
        drad := Function.update s1.drad i (s1.drad i + modcorr)
        trace := s1.trace ++ [Call.daberth i] }
    { p with
      s := s2
      computed_roots := if s2.again i then p.computed_roots else p.computed_roots + 1 }
  else p

/-- The body of the sweep of `mps_secular_ga_miterate` for root `i`. -/
def miterate_body (c : Collaborators K R X n) (i : Nat) (p : Packet K R X n) :
    Packet K R X n :=
  if p.s.again i then
    let r := call_newton (Call.mnewton i) c.mps_secular_mnewton p.s i
    let s1 := r.1
    let corr := r.2
    let abcorr := c.mps_maberth s1 i
    let abcorr := abcorr * corr
    let abcorr := 1 - abcorr
    let abcorr := corr / abcorr
    let modcorr := c.cplx_mod abcorr
    let s2 : mps_status K R X n :=
      { s1 with
        mroot := Function.update s1.mroot i (s1.mroot i - abcorr)
        drad := Function.update s1.drad i (s1.drad i + modcorr)
        trace := s1.trace ++ [Call.maberth i] }
    { p with
      s := s2
      computed_roots := if s2.again i then p.computed_roots else p.computed_roots + 1 }
  else p

/-- The loop `for (i = 0; i < s->n; i++) s->again[i] = true`. -/
def again_reset (s : mps_status K R X n) : mps_status K R X n :=
  for_loop (fun i (t : mps_status K R X n) =>
    { t with again := Function.update t.again i true }) n s

/-- The body of the first loop of `mps_secular_ga_miterate`: root `i` stays active when
its radius exceeds `drad`, and is counted as computed otherwise. -/
def miterate_reset_body (drad : R) (i : Nat) (p : Packet K R X n) : Packet K R X n :=
  if p.s.drad i > drad then
    { p with s := { p.s with again := Function.update p.s.again i true } }
  else
    { p with
      s := { p.s with again := Function.update p.s.again i false }
      computed_roots := p.computed_roots + 1 }

/-- The run of `mps_secular_ga_fiterate`, with its local counters at the return. -/
def fiterate_packet (c : Collaborators K R X n) (s : mps_status K R X n) (maxit : Int) :
    Packet K R X n :=
  while_loop (fiterate_body c) (maxit - 1) maxit.toNat
    { s := again_reset s, computed_roots := 0, iterations := 0 }

/-- The run of `mps_secular_ga_diterate`, with its local counters at the return. -/
def diterate_packet (c : Collaborators K R X n) (s : mps_status K R X n) (maxit : Int) :
    Packet K R X n :=
  while_loop (diterate_body c) (maxit - 1) maxit.toNat
    { s := again_reset s, computed_roots := 0, iterations := 0 }

/-- The run of `mps_secular_ga_miterate`, with its local counters at the return. -/
def miterate_packet (c : Collaborators K R X n) (s : mps_status K R X n) (maxit : Int) :
    Packet K R X n :=
  let drad : R := rdpe_set_2dl 1 (-s.prec_out)
  while_loop (miterate_body c) maxit maxit.toNat
    (for_loop (miterate_reset_body drad) n { s := s, computed_roots := 0, iterations := 0 })

/-- The function `mps_secular_ga_fiterate`: the state it leaves and the value returned. -/
def mps_secular_ga_fiterate (c : Collaborators K R X n) (s : mps_status K R X n)
    (maxit : Int) : mps_status K R X n × Nat :=
  ((fiterate_packet c s maxit).s, (fiterate_packet c s maxit).computed_roots)

/-- The function `mps_secular_ga_diterate`: the state it leaves and the value returned. -/
def mps_secular_ga_diterate (c : Collaborators K R X n) (s : mps_status K R X n)
    (maxit : Int) : mps_status K R X n × Nat :=
  ((diterate_packet c s maxit).s, (diterate_packet c s maxit).computed_roots)

/-- The function `mps_secular_ga_miterate`: the state it leaves and the value returned. -/
def mps_secular_ga_miterate (c : Collaborators K R X n) (s : mps_status K R X n)
    (maxit : Int) : mps_status K R X n × Nat :=
  ((miterate_packet c s maxit).s, (miterate_packet c s maxit).computed_roots)

/-! ## Coefficient regeneration -/

/-- The pair `(prod_b, sec_ev)` of row `i` after the first `j` passes of the inner loop
`for (j = 0; j < sec->n; j++)`; `none` as soon as a difference `b_i - old_b_j` was zero.
`b` is the coefficient array already overwritten with the approximations. -/
def regenerate_row (old_a old_b b : Nat → K) (i : Nat) : Nat → Option (K × K)
  | 0 => some (1, 0)
  | j + 1 =>
    match regenerate_row old_a old_b b i j with
    | none => none
    | some (prod_b, sec_ev) =>
      let btmp := b i - old_b j
      if btmp = 0 then none
      else
        let ctmp := btmp⁻¹ * old_a j
        let sec_ev := sec_ev + ctmp
        let prod_b := prod_b * btmp
        some (if i ≠ j then prod_b / (b i - b j) else prod_b, sec_ev)

/-- Outcome of the inner loop of a row when a quotient by zero is given no value: the
accumulators `prod_b` and `sec_ev`, `singular` when the loop met a zero difference
`b_i - old_b_j` and the regeneration was abandoned, `undefined` when `prod_b` was divided
by zero. -/
inductive Row (K : Type) where
  | value (prod_b sec_ev : K)
  | singular
  | undefined

/-- Modelled from the spec: the division routines `cplx_div_eq`, `cdpe_div_eq` and
`mpc_div_eq` are defined outside `secular-ga.c`; the specification takes the arithmetic
exactly, in a field, where a quotient by zero has no value. This is the inner loop of row
`i` as in `regenerate_row`, pass by pass, with that case made explicit: the source tests
`b_i - old_b_j` for zero (`singular`), and divides `prod_b` by `b_i - b_j` for `i ≠ j`
without a test (`undefined` when that difference is zero). -/
def regenerate_row_checked (old_a old_b b : Nat → K) (i : Nat) : Nat → Row K
  | 0 => Row.value 1 0
  | j + 1 =>
    match regenerate_row_checked old_a old_b b i j with
    | Row.value prod_b sec_ev =>
      let btmp := b i - old_b j
      if btmp = 0 then Row.singular
      else
        let ctmp := btmp⁻¹ * old_a j
        let sec_ev := sec_ev + ctmp
        let prod_b := prod_b * btmp
        if i ≠ j then
          let ctmp := b i - b j
          if ctmp = 0 then Row.undefined else Row.value (prod_b / ctmp) sec_ev
        else Row.value prod_b sec_ev
    | Row.singular => Row.singular
    | Row.undefined => Row.undefined

/-- Progress of the outer loop `for (i = 0; i < s->n; i++)` of a regeneration. -/
inductive Regen (K : Type) where
  | computed (a : Nat → K)
  | singular (a : Nat → K)

/-- The array `a` after the first `i` rows of the outer loop: `computed` when all of
them were written, `singular` (with `a` as it stood at that moment) when a zero
difference was met in one of them. -/
def regenerate_rows (old_a old_b b : Nat → K) (n : Nat) (a : Nat → K) : Nat → Regen K
  | 0 => Regen.computed a
  | i + 1 =>
    match regenerate_rows old_a old_b b n a i with
    | Regen.singular a1 => Regen.singular a1
    | Regen.computed a1 =>
      match regenerate_row old_a old_b b i n with
      | none => Regen.singular a1
      | some (prod_b, sec_ev) =>
        Regen.computed (Function.update a1 i ((sec_ev - 1) * prod_b))

/-- The first loop of a regeneration: `b_i` is set to the approximation of root `i`. -/
def set_b (n : Nat) (root b : Nat → K) : Nat → K :=
  fun k => if k < n then root k else b k

/-- A loop `for (i = 0; i < n; i++) x[i] = old[i]`. -/
def restore (n : Nat) (old x : Nat → K) : Nat → K :=
  fun k => if k < n then old k else x k

/-- The function `mps_secular_ga_regenerate_coefficients`.

* `float_phase`: on a zero difference the restoring loop returns inside its first pass,
  so index 0 alone is restored, and neither `mps_secular_fstart` nor
  `mps_secular_set_radii` is called.
* `dpe_phase`: on a zero difference `a` and `b` are restored and the function returns.
* `mp_phase`: on a zero difference `b` is restored and control jumps to
  `regenerate_m_exit`, from where `mps_secular_mstart` and `mps_secular_set_radii` are
  still called. -/
def mps_secular_ga_regenerate_coefficients (c : Collaborators K R X n)
    (s : mps_status K R X n) : mps_status K R X n :=
  match s.lastphase with
  | mps_phase.float_phase =>
    let old_a := s.sec.afpc
    let old_b := s.sec.bfpc
    let b := set_b n s.froot s.sec.bfpc
    match regenerate_rows old_a old_b b n s.sec.afpc n with
    | Regen.singular a =>
      { s with
        sec := { s.sec with
                 afpc := Function.update a 0 (old_a 0)
                 bfpc := Function.update b 0 (old_b 0) }
        trace := s.trace ++ [Call.debug_reusing_old] }
    | Regen.computed a =>
      call Call.set_radii c.mps_secular_set_radii
        (call Call.fstart c.mps_secular_fstart
          { s with sec := { s.sec with afpc := a, bfpc := b } })
  | mps_phase.dpe_phase =>
    let old_da := s.sec.adpc
    let old_db := s.sec.bdpc
    let b := set_b n s.droot s.sec.bdpc
    match regenerate_rows old_da old_db b n s.sec.adpc n with
    | Regen.singular a =>
      { s with
        sec := { s.sec with
                 adpc := restore n old_da a
                 bdpc := restore n old_db b }
        trace := s.trace ++ [Call.debug_reusing_old] }
    | Regen.computed a =>
      call Call.set_radii c.mps_secular_set_radii
        (call Call.dstart c.mps_secular_dstart
          { s with sec := { s.sec with adpc := a, bdpc := b } })
  | mps_phase.mp_phase =>
    let old_ma := s.sec.ampc
    let old_mb := s.sec.bmpc
    let b := set_b n s.mroot s.sec.bmpc
    match regenerate_rows old_ma old_mb b n s.sec.ampc n with
    | Regen.singular a =>
      call Call.set_radii c.mps_secular_set_radii
        (call Call.mstart c.mps_secular_mstart
          { s with
            sec := { s.sec with ampc := a, bmpc := restore n old_mb b }
            trace := s.trace ++ [Call.debug_reusing_old] })
    | Regen.computed a =>
      call Call.set_radii c.mps_secular_set_radii
        (call Call.mstart c.mps_secular_mstart
          { s with sec := { s.sec with ampc := a, bmpc := b } })

/-! ## Stop predicate -/

/-- The body of the loop of `mps_secular_ga_check_stop` for index `i`: `false` when the
body executes `return false`. The `float_phase` case has no `break` and falls through to
the test of the DPE radius. -/
def check_stop_body (s : mps_status K R X n) (frad drad : R) (i : Nat) : Bool :=
  match s.lastphase with
  | mps_phase.float_phase =>
    if s.frad i > frad then false
    else if s.drad i > drad then false
    else true
  | mps_phase.mp_phase =>
    if s.drad i > drad then false else true
  | mps_phase.dpe_phase =>
    if s.drad i > drad then false else true

/-- The function `mps_secular_ga_check_stop`. -/
def mps_secular_ga_check_stop (c : Collaborators K R X n) (s : mps_status K R X n) : Bool :=
  let frad := c.pow10 (-s.prec_out)
  let drad : R := rdpe_set_2dl 1 (-s.prec_out)
  if frad = 0 ∧ s.lastphase = mps_phase.float_phase then false
  else (List.range n).all (fun i => check_stop_body s frad drad i)

/-! ## The driver -/

/-- The state and the local variables `roots_computed`, `packet` of
`mps_secular_ga_mpsolve`. -/
structure Driver (K R X : Type) (n : Nat) where
  s : mps_status K R X n
  roots_computed : Nat
  packet : Nat

/-- The outcome of one round of the `do … while` loop of `mps_secular_ga_mpsolve`: the
function has returned with the state `s`, or the loop goes on from `d`. -/
inductive Round (K R X : Type) (n : Nat) where
  | returned (s : mps_status K R X n)
  | continues (d : Driver K R X n)

/-- The first `switch` of a round: one packet of `iteration_per_packet = 10` iterations in
the kind of `lastphase`; `packet` is incremented in the float and DPE phases only. -/
def mpsolve_packet (c : Collaborators K R X n) (d : Driver K R X n) : Driver K R X n :=
  match d.s.lastphase with
  | mps_phase.float_phase =>
    { s := (mps_secular_ga_fiterate c d.s 10).1
      roots_computed := (mps_secular_ga_fiterate c d.s 10).2
      packet := d.packet + 1 }
  | mps_phase.dpe_phase =>
    { s := (mps_secular_ga_diterate c d.s 10).1
      roots_computed := (mps_secular_ga_diterate c d.s 10).2
      packet := d.packet + 1 }
  | mps_phase.mp_phase =>
    { s := (mps_secular_ga_miterate c d.s 10).1
      roots_computed := (mps_secular_ga_miterate c d.s 10).2
      packet := d.packet }

/-- The `if … else if` of a round that follows a failed stop check: the switch to the MP
phase, or the raise of the precision, each followed by a regeneration. -/
def mpsolve_escalate (c : Collaborators K R X n) (d : Driver K R X n) : mps_status K R X n :=
  if d.s.lastphase ≠ mps_phase.mp_phase ∧ (d.roots_computed = n ∨ d.packet > 3) then
    mps_secular_ga_regenerate_coefficients c
      (call (Call.switch_phase mps_phase.mp_phase)
        (fun t => c.mps_secular_switch_phase t mps_phase.mp_phase) d.s)
  else if d.s.lastphase = mps_phase.mp_phase then
    mps_secular_ga_regenerate_coefficients c
      (call Call.raise_precision c.mps_secular_raise_precision d.s)
  else d.s

/-- One round of the `do … while (!mps_secular_ga_check_stop (s))` loop. -/
def mpsolve_round (c : Collaborators K R X n) (d : Driver K R X n) : Round K R X n :=
  let d1 := mpsolve_packet c d
  if mps_secular_ga_check_stop c d1.s then Round.returned d1.s
  else
    let s2 := mpsolve_escalate c d1
    if mps_secular_ga_check_stop c s2 then Round.returned s2
    else Round.continues { d1 with s := s2 }

/-- The loop of `mps_secular_ga_mpsolve` after at most `k` rounds. -/
def mpsolve_rounds (c : Collaborators K R X n) : Nat → Driver K R X n → Round K R X n
  | 0, d => Round.continues d
  | k + 1, d =>
    match mpsolve_rounds c k d with
    | Round.returned s => Round.returned s
    | Round.continues d1 => mpsolve_round c d1

/-- The part of `mps_secular_ga_mpsolve` that precedes the loop; `dbl_max` is the constant
`DBL_MAX` of the C library. -/
def mpsolve_init (c : Collaborators K R X n) (dbl_max : R) (s : mps_status K R X n)
    (phase : mps_phase) : Driver K R X n :=
  let s0 := for_loop (fun i (t : mps_status K R X n) =>
    { t with frad := Function.update t.frad i dbl_max }) n s
  let s1 := call Call.cluster_reset c.mps_cluster_reset s0
  let s2 : mps_status K R X n := { s1 with lastphase := phase }
  let s3 :=
    match s2.lastphase with
    | mps_phase.float_phase => call Call.fstart c.mps_secular_fstart s2
    | mps_phase.dpe_phase => call Call.dstart c.mps_secular_dstart s2
    | mps_phase.mp_phase => call Call.mstart c.mps_secular_mstart s2
  { s := call Call.set_radii c.mps_secular_set_radii s3, roots_computed := 0, packet := 0 }

/-- The function `mps_secular_ga_mpsolve`, unfolded for at most `fuel` rounds of its loop:
the state it returns with, or `none` when the loop is still running after `fuel` rounds
(the loop has no bound of its own). -/
def mps_secular_ga_mpsolve (c : Collaborators K R X n) (dbl_max : R) (fuel : Nat)
    (s : mps_status K R X n) (phase : mps_phase) : Option (mps_status K R X n) :=
  match mpsolve_rounds c fuel (mpsolve_init c dbl_max s phase) with
  | Round.returned s1 => some s1
  | Round.continues _ => none

/-! ## String duplication (`common/strndup.c`) -/

/-- The C library function `strlen` on a memory region given as the list of its bytes:
the number of bytes before the first NUL. -/
def strlen (mem : List Nat) : Nat := (mem.takeWhile (fun b => b ≠ 0)).length

/-- The C library function `memcpy (dest, source, n)`: the first `n` bytes of `dest` are
replaced by the first `n` bytes of `source`. -/
def memcpy (dest source : List Nat) (n : Nat) : List Nat := source.take n ++ dest.drop n

/-- The function `mps_strndup`. The allocation `mps_newv (char, n + 1)` is a parameter: it
gives a fresh buffer of the requested number of bytes, whose contents are not
specified. -/
def mps_strndup (mps_newv : Nat → List Nat) (source : List Nat) (n : Nat) : List Nat :=
  let length := strlen source
  let n := if length < n then length else n
  let dest := mps_newv (n + 1)
  memcpy dest source n

end Defs

/-! ## Statement vocabulary -/

section Vocabulary

variable {K R X : Type} {n : Nat}

/-- The approximations of the kind of phase `p`. -/
def mps_status.root (s : mps_status K R X n) : mps_phase → Nat → K
  | mps_phase.float_phase => s.froot
  | mps_phase.dpe_phase => s.droot
  | mps_phase.mp_phase => s.mroot

/-- The coefficients `a_i` of the kind of phase `p`. -/
def mps_secular_equation.a (sec : mps_secular_equation K) : mps_phase → Nat → K
  | mps_phase.float_phase => sec.afpc
  | mps_phase.dpe_phase => sec.adpc
  | mps_phase.mp_phase => sec.ampc

/-- The coefficients `b_i` of the kind of phase `p`. -/
def mps_secular_equation.b (sec : mps_secular_equation K) : mps_phase → Nat → K
  | mps_phase.float_phase => sec.bfpc
  | mps_phase.dpe_phase => sec.bdpc
  | mps_phase.mp_phase => sec.bmpc

/-- The start routines and `mps_secular_set_radii` leave the component `proj` of the
state as they found it. -/
def start_keeps {α : Type} (c : Collaborators K R X n) (proj : mps_status K R X n → α) :
    Prop :=
  (∀ s, proj (c.mps_secular_fstart s) = proj s) ∧
  (∀ s, proj (c.mps_secular_dstart s) = proj s) ∧
  (∀ s, proj (c.mps_secular_mstart s) = proj s) ∧
  (∀ s, proj (c.mps_secular_set_radii s) = proj s)

/-- Of the flags `again`, a Newton evaluator writes only that of the root it is called
for. -/
def writes_own_flag (f : mps_status K R X n → Nat → mps_status K R X n × K) : Prop :=
  ∀ s i j, j ≠ i → (f s i).1.again j = s.again j

/-- The number of roots below `n` whose flag `again` is false. -/
def inactive (n : Nat) (again : Nat → Bool) : Nat :=
  ((Finset.range n).filter (fun i => again i = false)).card

/-- The packet `q` is what `q.iterations` sweeps make of the packet `p`, and each of
these sweeps was started with `computed_roots < n`. -/
def is_run (body : Nat → Packet K R X n → Packet K R X n) (p q : Packet K R X n) : Prop :=
  q = (sweep body)^[q.iterations] p ∧
  ∀ k < q.iterations, ((sweep body)^[k] p).computed_roots < n

/-- What the bodies of the three sweeps have in common, for the Newton evaluator `newton`
and the trace entries `ev_newton i`, `ev_aberth i` of the kind: an inactive root is
skipped; on an active root the evaluator decides the flags, the root is counted when its
flag was cleared, and the two calls are recorded. -/
structure BodySpec (newton : mps_status K R X n → Nat → mps_status K R X n × K)
    (ev_newton ev_aberth : Nat → Call)
    (body : Nat → Packet K R X n → Packet K R X n) : Prop where
  skip : ∀ i p, p.s.again i = false → body i p = p
  flags : ∀ i p, p.s.again i = true → (body i p).s.again = (newton p.s i).1.again
  computed : ∀ i p, p.s.again i = true →
    (body i p).computed_roots =
      if (newton p.s i).1.again i then p.computed_roots else p.computed_roots + 1
  iterations : ∀ i p, (body i p).iterations = p.iterations
  trace : ∀ i p, p.s.again i = true →
    (body i p).s.trace = p.s.trace ++ [ev_newton i, ev_aberth i]
  events : ∀ i k, List.count (ev_newton i) [ev_newton k, ev_aberth k] = if k = i then 1 else 0

/-- The radii of the kind of phase `p` (`frad` in the float phase, `drad` otherwise). -/
def mps_status.rad (s : mps_status K R X n) : mps_phase → Nat → R
  | mps_phase.float_phase => s.frad
  | mps_phase.dpe_phase => s.drad
  | mps_phase.mp_phase => s.drad

/-- The state with the approximations of the kind of phase `p` replaced by `z`. -/
def mps_status.set_root (s : mps_status K R X n) (p : mps_phase) (z : Nat → K) :
    mps_status K R X n :=
  match p with
  | mps_phase.float_phase => { s with froot := z }
  | mps_phase.dpe_phase => { s with droot := z }
  | mps_phase.mp_phase => { s with mroot := z }

/-- The state with the radii of the kind of phase `p` replaced by `r`. -/
def mps_status.set_rad (s : mps_status K R X n) (p : mps_phase) (r : Nat → R) :
    mps_status K R X n :=
  match p with
  | mps_phase.float_phase => { s with frad := r }
  | mps_phase.dpe_phase => { s with drad := r }
  | mps_phase.mp_phase => { s with drad := r }

/-- The Newton evaluator of the kind of phase `p`. -/
def Collaborators.newton (c : Collaborators K R X n) :
    mps_phase → mps_status K R X n → Nat → mps_status K R X n × K
  | mps_phase.float_phase => c.mps_secular_fnewton
  | mps_phase.dpe_phase => c.mps_secular_dnewton
  | mps_phase.mp_phase => c.mps_secular_mnewton

/-- The Aberth routine of the kind of phase `p`. -/
def Collaborators.aberth (c : Collaborators K R X n) :
    mps_phase → mps_status K R X n → Nat → K
  | mps_phase.float_phase => c.mps_faberth
  | mps_phase.dpe_phase => c.mps_daberth
  | mps_phase.mp_phase => c.mps_maberth

/-- The trace entry of a call of the Newton evaluator of the kind of phase `p`. -/
def Call.newton : mps_phase → Nat → Call
  | mps_phase.float_phase => Call.fnewton
  | mps_phase.dpe_phase => Call.dnewton
  | mps_phase.mp_phase => Call.mnewton

/-- The trace entry of a call of the Aberth routine of the kind of phase `p`. -/
def Call.aberth : mps_phase → Nat → Call
  | mps_phase.float_phase => Call.faberth
  | mps_phase.dpe_phase => Call.daberth
  | mps_phase.mp_phase => Call.maberth

/-- The state the Newton evaluator of the kind of phase `ph` leaves when called for root
`i` on the state `t`, with the call recorded. -/
def newton_state (c : Collaborators K R X n) (ph : mps_phase) (i : Nat)
    (t : mps_status K R X n) : mps_status K R X n :=
  { (c.newton ph t i).1 with trace := t.trace ++ [Call.newton ph i] }

/-- The Aberth correction `corr / (1 - sum * corr)` of root `i`: `corr` is the Newton
correction computed on the state `t`, `sum` the Aberth sum of the state at that
moment. -/
def abcorr [Field K] (c : Collaborators K R X n) (ph : mps_phase) (i : Nat)
    (t : mps_status K R X n) : K :=
  (c.newton ph t i).2 / (1 - c.aberth ph (newton_state c ph i t) i * (c.newton ph t i).2)

/-- The single-root step of the specification for root `i` in the kind of phase `ph`: it
does nothing when `again[i]` is false; otherwise it sets
`z_i := z_i - corr / (1 - sum * corr)` and `r_i := r_i + |corr / (1 - sum * corr)|`,
whatever the evaluator wrote into `again[i]`. -/
def aberth_step [Field K] [LinearOrderedField R] (c : Collaborators K R X n)
    (ph : mps_phase) (i : Nat) (t : mps_status K R X n) : mps_status K R X n :=
  if t.again i then
    let s1 := newton_state c ph i t
    { (s1.set_root ph (Function.update (s1.root ph) i (s1.root ph i - abcorr c ph i t))).set_rad
        ph (Function.update (s1.rad ph) i (s1.rad ph i + c.cplx_mod (abcorr c ph i t))) with
      trace := s1.trace ++ [Call.aberth ph i] }
  else t

/-- The body of the sweep of the packet of the kind of phase `ph`. -/
def iterate_body [Field K] [LinearOrderedField R] (c : Collaborators K R X n) :
    mps_phase → Nat → Packet K R X n → Packet K R X n
  | mps_phase.float_phase => fiterate_body c
  | mps_phase.dpe_phase => diterate_body c
  | mps_phase.mp_phase => miterate_body c

/-- The packet of the kind of phase `ph` after its first loop, at the entry of the
`while` loop. -/
def iterate_start [LinearOrderedField R] (ph : mps_phase) (s : mps_status K R X n) :
    Packet K R X n :=
  match ph with
  | mps_phase.float_phase => { s := again_reset s, computed_roots := 0, iterations := 0 }
  | mps_phase.dpe_phase => { s := again_reset s, computed_roots := 0, iterations := 0 }
  | mps_phase.mp_phase =>
    for_loop (miterate_reset_body (rdpe_set_2dl 1 (-s.prec_out))) n
      { s := s, computed_roots := 0, iterations := 0 }

/-- The run of the packet of the kind of phase `ph` (`fiterate_packet`, `diterate_packet`,
`miterate_packet`). -/
def iterate_packet [Field K] [LinearOrderedField R] (c : Collaborators K R X n)
    (ph : mps_phase) (s : mps_status K R X n) (maxit : Int) : Packet K R X n :=
  match ph with
  | mps_phase.float_phase => fiterate_packet c s maxit
  | mps_phase.dpe_phase => diterate_packet c s maxit
  | mps_phase.mp_phase => miterate_packet c s maxit

/-- The Newton evaluator `f` writes nothing but the flag `again` of the root it is called
for: the flags of the other roots, the approximations and the radii are as it found
them. -/
def writes_flag_only (f : mps_status K R X n → Nat → mps_status K R X n × K) : Prop :=
  ∀ s i, (∀ j, j ≠ i → (f s i).1.again j = s.again j) ∧
    (f s i).1.froot = s.froot ∧ (f s i).1.droot = s.droot ∧ (f s i).1.mroot = s.mroot ∧
    (f s i).1.frad = s.frad ∧ (f s i).1.drad = s.drad

/-- The status of a round: the state returned, or the state the loop goes on from. -/
def Round.state : Round K R X n → mps_status K R X n
  | Round.returned s => s
  | Round.continues d => d.s

/-- The collaborators called inside the loop of the driver treat `lastphase` as
expected: `mps_secular_switch_phase` sets it to the phase it is given, and the Newton
evaluators, the start routines, `mps_secular_set_radii` and
`mps_secular_raise_precision` leave it as they found it. -/
def phase_discipline (c : Collaborators K R X n) : Prop :=
  (∀ s p, (c.mps_secular_switch_phase s p).lastphase = p) ∧
  (∀ ph s i, (c.newton ph s i).1.lastphase = s.lastphase) ∧
  start_keeps c (fun t => t.lastphase) ∧
  (∀ s, (c.mps_secular_raise_precision s).lastphase = s.lastphase)

end Vocabulary

/-! ## Concrete instances over the rationals -/

/-- Collaborators that leave the state as it is; every Newton evaluator clears the flag
of the root it is called for and returns the correction 1, the Aberth sums are 0, and
`pow10` is exact. -/
def idle (n : Nat) : Collaborators ℚ ℚ Unit n where
  mps_secular_fnewton := fun s i => ({ s with again := Function.update s.again i false }, 1)
  mps_secular_dnewton := fun s i => ({ s with again := Function.update s.again i false }, 1)
  mps_secular_mnewton := fun s i => ({ s with again := Function.update s.again i false }, 1)
  mps_faberth := fun _ _ => 0
  mps_daberth := fun _ _ => 0
  mps_maberth := fun _ _ => 0
  mps_secular_fstart := fun s => s
  mps_secular_dstart := fun s => s
  mps_secular_mstart := fun s => s
  mps_secular_set_radii := fun s => s
  mps_secular_switch_phase := fun s p => { s with lastphase := p }
  mps_secular_raise_precision := fun s => s
  mps_cluster_reset := fun s => s
  cplx_mod := fun x => |x|
  pow10 := fun e => (10 : ℚ) ^ e

/-- The array with the given first entries, continued by zeros. -/
def arr (l : List ℚ) : Nat → ℚ := fun k => l.getD k 0

/-- A state of degree `n` in which the three kinds hold the same coefficients `a`, `b`
and approximations `z`, with radii `frad` and `drad`. -/
def state (n : Nat) (phase : mps_phase) (prec_out : Int) (a b z : List ℚ)
    (frad drad : List ℚ) : mps_status ℚ ℚ Unit n where
  lastphase := phase
  prec_out := prec_out
  again := fun _ => true
  froot := arr z
  droot := arr z
  mroot := arr z
  frad := arr frad
  drad := arr drad
  sec := { afpc := arr a, bfpc := arr b, adpc := arr a, bdpc := arr b,
           ampc := arr a, bmpc := arr b }
  other := ()
  trace := []

/-- A float-phase state of degree 3 whose approximation `froot[2] = 4` equals the
coefficient `bfpc[2] = 4`, so that the regeneration meets a zero difference in row 2. -/
def float_abort_state : mps_status ℚ ℚ Unit 3 :=
  state 3 mps_phase.float_phase 1 [1, 1, 1] [0, 2, 4] [1, 3, 4] [] []

/-- An MP-phase state of degree 2 whose approximation `mroot[1] = 2` equals the
coefficient `bmpc[1] = 2`, so that the regeneration meets a zero difference in row 1. -/
def mp_abort_state : mps_status ℚ ℚ Unit 2 :=
  state 2 mps_phase.mp_phase 1 [1, 1] [0, 2] [1, 2] [] []

/-- A DPE-phase state of degree 2 whose approximation `droot[1] = 2` equals the
coefficient `bdpc[1] = 2`. -/
def dpe_abort_state : mps_status ℚ ℚ Unit 2 :=
  state 2 mps_phase.dpe_phase 1 [1, 1] [0, 2] [1, 2] [] []

/-- A float-phase state of degree 2 with `a = [1, 1]`, `b = [0, 2]` and the approximations
`[3, -1]`, none of which is an old `b_j`. -/
def two_roots_state : mps_status ℚ ℚ Unit 2 :=
  state 2 mps_phase.float_phase 40 [1, 1] [0, 2] [3, -1] [] []

/-- A float-phase state of degree 1 whose radius 0 meets the float target `10^(-1)`,
while its DPE radius 1 exceeds `2^(-1)`. -/
def float_stop_state : mps_status ℚ ℚ Unit 1 :=
  state 1 mps_phase.float_phase 1 [3] [5] [8] [0] [1]

/-- An MP-phase state of degree 1 whose DPE radius `1/4` is below `2^(-1)`. -/
def mp_stop_state : mps_status ℚ ℚ Unit 1 :=
  state 1 mps_phase.mp_phase 1 [3] [5] [8] [7] [1/4]

/-- A float-phase state of degree 3 with large radii. -/
def three_roots_state : mps_status ℚ ℚ Unit 3 :=
  state 3 mps_phase.float_phase 1 [1, 1, 1] [0, 2, 4] [1, 3, 5] [9, 9, 9] [9, 9, 9]

/-- Collaborators whose Newton evaluators never clear a flag: like `idle`, but every
evaluator leaves the state as it is. -/
def stalled (n : Nat) : Collaborators ℚ ℚ Unit n :=
  { idle n with
    mps_secular_fnewton := fun s _ => (s, 1)
    mps_secular_dnewton := fun s _ => (s, 1)
    mps_secular_mnewton := fun s _ => (s, 1) }

/-- Collaborators like `idle`, but for which `pow(10, e)` underflows to zero. -/
def underflow (n : Nat) : Collaborators ℚ ℚ Unit n :=
  { idle n with pow10 := fun _ => 0 }

/-- A float-phase state of degree 1 whose DPE radius `1/4` is below `2^(-1)`. -/
def float_underflow_state : mps_status ℚ ℚ Unit 1 :=
  state 1 mps_phase.float_phase 1 [3] [5] [8] [0] [1/4]

/-- A float-phase state of degree 2 with `a = [1, 1]`, `b = [0, 2]` and the approximations
`[3, 3]`: none of them is an old `b_j`, and the two coincide. -/
def repeated_roots_state : mps_status ℚ ℚ Unit 2 :=
  state 2 mps_phase.float_phase 40 [1, 1] [0, 2] [3, 3] [] []

/-- Collaborators like `idle`, but the Newton evaluators clear the flag of root 1 only:
called for any other root they leave its flag set. -/
def settling (n : Nat) : Collaborators ℚ ℚ Unit n :=
  { idle n with
    mps_secular_fnewton := fun s i =>
      ({ s with again := Function.update s.again i (decide (i ≠ 1)) }, 1)
    mps_secular_dnewton := fun s i =>
      ({ s with again := Function.update s.again i (decide (i ≠ 1)) }, 1)
    mps_secular_mnewton := fun s i =>
      ({ s with again := Function.update s.again i (decide (i ≠ 1)) }, 1) }

/-- An MP-phase state of degree 3 with the approximations `[1, 3, 5]`, whose root 0 has the
radius `1/4 ≤ 2^(-1)` and whose roots 1 and 2 have the radius 9. -/
def mp_mixed_state : mps_status ℚ ℚ Unit 3 :=
  state 3 mps_phase.mp_phase 1 [1, 1, 1] [0, 2, 4] [1, 3, 5] [9, 9, 9] [1 / 4, 9, 9]

/-- An allocator that leaves the byte `0xFF` everywhere in the buffers it gives out. -/
def stale_alloc : Nat → List Nat := fun k => List.replicate k 255

/-- The C string `"ab"`: the bytes `0x61`, `0x62` and the terminating NUL. -/
def string_ab : List Nat := [97, 98, 0]

/-! ## Regeneration: the loops -/

theorem set_b_lt {K : Type} (n : Nat) (root b : Nat → K) {k : Nat} (h : k < n) :
    set_b n root b k = root k := by
  simp [set_b, h]

theorem restore_lt {K : Type} (n : Nat) (old x : Nat → K) {k : Nat} (h : k < n) :
    restore n old x k = old k := by
  simp [restore, h]

section RegenerationLoops

variable {K : Type} [Field K] [DecidableEq K]

/-- The inner loop of row `i` meets a zero difference within its first `k` passes exactly
when `b_i` equals one of the first `k` old `b_j`. -/
theorem regenerate_row_none (old_a old_b b : Nat → K) (i : Nat) (k : Nat) :
    regenerate_row old_a old_b b i k = none ↔ ∃ j < k, b i = old_b j := by
  induction k with
  | zero => simp [regenerate_row]
  | succ k ih =>
    rw [regenerate_row]
    cases hrow : regenerate_row old_a old_b b i k with
    | none =>
      obtain ⟨j, hj, hij⟩ := ih.mp hrow
      simp only [true_iff]
      exact ⟨j, Nat.lt_succ_of_lt hj, hij⟩
    | some acc =>
      have hno : ¬ ∃ j < k, b i = old_b j := fun h => by
        have := ih.mpr h
        rw [hrow] at this
        exact Option.noConfusion this
      by_cases hk : b i - old_b k = 0
      · simp only [hk, if_true, true_iff]
        exact ⟨k, Nat.lt_succ_self k, sub_eq_zero.mp hk⟩
      · simp only [hk, if_false]
        constructor
        · intro h
          exact Option.noConfusion h
        · rintro ⟨j, hj, hij⟩
          exfalso
          rcases Nat.lt_succ_iff_lt_or_eq.mp hj with hlt | heq
          · exact hno ⟨j, hlt, hij⟩
          · subst heq
            exact hk (sub_eq_zero.mpr hij)

/-- Closed form of the accumulators `prod_b` and `sec_ev` of row `i` after `k` passes
without a zero difference. -/
theorem regenerate_row_some (old_a old_b b : Nat → K) (i : Nat) (k : Nat)
    (h : ∀ j < k, b i ≠ old_b j) :
    regenerate_row old_a old_b b i k =
      some ((∏ j in Finset.range k, (b i - old_b j)) /
              ∏ j in (Finset.range k).filter (fun j => j ≠ i), (b i - b j),
            ∑ j in Finset.range k, old_a j / (b i - old_b j)) := by
  induction k with
  | zero => simp [regenerate_row]
  | succ k ih =>
    have hk : b i - old_b k ≠ 0 := sub_ne_zero.mpr (h k (Nat.lt_succ_self k))
    rw [regenerate_row, ih (fun j hj => h j (Nat.lt_succ_of_lt hj))]
    simp only [hk, if_false, Finset.prod_filter, Finset.prod_range_succ,
      Finset.sum_range_succ]
    congr 1
    by_cases hik : i = k
    · subst hik
      simp only [ne_eq, not_true_eq_false, if_false, mul_one]
      refine Prod.ext ?_ ?_
      · simp only [div_eq_mul_inv]
        ring
      · simp only [div_eq_mul_inv]
        ring
    · have hki : ¬ k = i := fun h => hik h.symm
      simp only [ne_eq, hik, hki, not_false_eq_true, if_true]
      refine Prod.ext ?_ ?_
      · simp only [div_eq_mul_inv, mul_inv]
        ring
      · simp only [div_eq_mul_inv]
        ring

/-- When `b_i` differs from the first `k` old `b_j` and from the first `k` other `b_j`, no
pass of the inner loop of row `i` divides by zero, and the loop with quotients by zero
made explicit ends with the accumulators of `regenerate_row`. -/
theorem regenerate_row_checked_value (old_a old_b b : Nat → K) (i : Nat) (k : Nat)
    (h : ∀ j < k, b i ≠ old_b j) (hd : ∀ j < k, i ≠ j → b i ≠ b j) :
    ∀ p s, regenerate_row old_a old_b b i k = some (p, s) →
      regenerate_row_checked old_a old_b b i k = Row.value p s := by
  induction k with
  | zero =>
    intro p s hps
    simp only [regenerate_row, Option.some.injEq, Prod.mk.injEq] at hps
    rw [regenerate_row_checked, hps.1, hps.2]
  | succ k ih =>
    intro p s hps
    have hrow := regenerate_row_some old_a old_b b i k (fun j hj => h j (Nat.lt_succ_of_lt hj))
    have hchk := ih (fun j hj => h j (Nat.lt_succ_of_lt hj))
      (fun j hj => hd j (Nat.lt_succ_of_lt hj)) _ _ hrow
    have hk : b i - old_b k ≠ 0 := sub_ne_zero.mpr (h k (Nat.lt_succ_self k))
    rw [regenerate_row, hrow] at hps
    rw [regenerate_row_checked, hchk]
    simp only [hk, if_false, Option.some.injEq] at hps ⊢
    by_cases hik : i = k
    · subst hik
      simp only [ne_eq, not_true_eq_false, if_false] at hps ⊢
      rw [← (Prod.mk.inj hps).1, ← (Prod.mk.inj hps).2]
    · have hne : b i - b k ≠ 0 := sub_ne_zero.mpr (hd k (Nat.lt_succ_self k) hik)
      simp only [ne_eq, hik, not_false_eq_true, if_true, hne, if_false] at hps ⊢
      rw [← (Prod.mk.inj hps).1, ← (Prod.mk.inj hps).2]

/-- Once a zero difference was met, the outer loop is left. -/
theorem regenerate_rows_singular_stays (old_a old_b b : Nat → K) (n : Nat) (a a1 : Nat → K)
    (k d : Nat) (h : regenerate_rows old_a old_b b n a k = Regen.singular a1) :
    regenerate_rows old_a old_b b n a (k + d) = Regen.singular a1 := by
  induction d with
  | zero => exact h
  | succ d ih =>
    rw [← Nat.add_assoc, regenerate_rows, ih]

/-- The outer loop takes the singular exit as soon as some `b_i` of its first `m` rows
equals an old `b_j`. -/
theorem regenerate_rows_singular (old_a old_b b : Nat → K) (n : Nat) (a : Nat → K) (m : Nat)
    (h : ∃ i < m, ∃ j < n, b i = old_b j) :
    ∃ a1, regenerate_rows old_a old_b b n a m = Regen.singular a1 := by
  induction m with
  | zero =>
    obtain ⟨i, hi, _⟩ := h
    exact absurd hi (Nat.not_lt_zero i)
  | succ m ih =>
    rw [regenerate_rows]
    cases hrows : regenerate_rows old_a old_b b n a m with
    | singular a1 => exact ⟨a1, rfl⟩
    | computed a1 =>
      have hm : ∃ j < n, b m = old_b j := by
        obtain ⟨i, hi, j, hj, hij⟩ := h
        rcases Nat.lt_succ_iff_lt_or_eq.mp hi with hlt | heq
        · obtain ⟨a2, ha2⟩ := ih ⟨i, hlt, j, hj, hij⟩
          rw [hrows] at ha2
          exact Regen.noConfusion ha2
        · subst heq
          exact ⟨j, hj, hij⟩
      have hnone := (regenerate_row_none old_a old_b b m n).mpr hm
      simp only [hnone]
      exact ⟨a1, rfl⟩

/-- A zero difference in row 0 leaves the array `a` as it was. -/
theorem regenerate_rows_singular_zero (old_a old_b b : Nat → K) (n : Nat) (a : Nat → K)
    (m : Nat) (h : ∃ j < n, b 0 = old_b j) :
    regenerate_rows old_a old_b b n a (m + 1) = Regen.singular a := by
  have h1 : regenerate_rows old_a old_b b n a 1 = Regen.singular a := by
    simp only [regenerate_rows, (regenerate_row_none old_a old_b b 0 n).mpr h]
  have := regenerate_rows_singular_stays old_a old_b b n a a 1 m h1
  rwa [Nat.add_comm] at this

/-- Closed form of the array `a` after `m` rows without a zero difference. -/
theorem regenerate_rows_computed (old_a old_b b : Nat → K) (n : Nat) (a : Nat → K) (m : Nat)
    (h : ∀ i < m, ∀ j < n, b i ≠ old_b j) :
    regenerate_rows old_a old_b b n a m =
      Regen.computed (fun k => if k < m then
        ((∑ j in Finset.range n, old_a j / (b k - old_b j)) - 1) *
          ((∏ j in Finset.range n, (b k - old_b j)) /
            ∏ j in (Finset.range n).filter (fun j => j ≠ k), (b k - b j))
        else a k) := by
  induction m with
  | zero => simp [regenerate_rows]
  | succ m ih =>
    rw [regenerate_rows, ih (fun i hi => h i (Nat.lt_succ_of_lt hi)),
      regenerate_row_some old_a old_b b m n (h m (Nat.lt_succ_self m))]
    simp only
    congr 1
    funext k
    by_cases hkm : k = m
    · subst hkm
      simp
    · rw [Function.update_noteq hkm]
      have h1 : k < m + 1 ↔ k < m := by omega
      simp only [h1]

end RegenerationLoops

/-! ## Regeneration: rollback on a singularity -/

/-- C1 (as the code behaves): in the float phase the restoring loop of the abort branch
returns inside its first pass. On `float_abort_state`, where `froot[2] = bfpc[2]`, the call
leaves `afpc[1] = -1` and `bfpc[1] = 3` although their values before the call were 1 and 2:
the coefficients are not rolled back. -/
theorem regenerate_float_abort_not_rolled_back :
    float_abort_state.lastphase = mps_phase.float_phase ∧
    float_abort_state.froot 2 = float_abort_state.sec.bfpc 2 ∧
    float_abort_state.sec.afpc 1 = 1 ∧
    float_abort_state.sec.bfpc 1 = 2 ∧
    (mps_secular_ga_regenerate_coefficients (idle 3) float_abort_state).sec.afpc 1 = -1 ∧
    (mps_secular_ga_regenerate_coefficients (idle 3) float_abort_state).sec.bfpc 1 = 3 ∧
    (mps_secular_ga_regenerate_coefficients (idle 3) float_abort_state).trace =
      [Call.debug_reusing_old] := by
  refine ⟨rfl, rfl, rfl, rfl, ?_, ?_, ?_⟩
  · simp [mps_secular_ga_regenerate_coefficients, float_abort_state, state, regenerate_rows,
      regenerate_row, set_b, arr]
    norm_num
  · norm_num [mps_secular_ga_regenerate_coefficients, float_abort_state, state,
      regenerate_rows, regenerate_row, set_b, arr]
  · norm_num [mps_secular_ga_regenerate_coefficients, float_abort_state, state,
      regenerate_rows, regenerate_row, set_b, arr]

/-- C2 (as the code behaves): in the MP phase the abort branch restores `b` only. On
`mp_abort_state`, where `mroot[1] = bmpc[1]`, row 0 has been rewritten when the zero
difference is met in row 1, and the call leaves `ampc[0] = -1` although it was 1 before
the call. -/
theorem regenerate_mp_abort_not_rolled_back :
    mp_abort_state.lastphase = mps_phase.mp_phase ∧
    mp_abort_state.mroot 1 = mp_abort_state.sec.bmpc 1 ∧
    mp_abort_state.sec.ampc 0 = 1 ∧
    (mps_secular_ga_regenerate_coefficients (idle 2) mp_abort_state).sec.ampc 0 = -1 ∧
    (mps_secular_ga_regenerate_coefficients (idle 2) mp_abort_state).trace =
      [Call.debug_reusing_old, Call.mstart, Call.set_radii] := by
  refine ⟨rfl, rfl, rfl, ?_, ?_⟩
  · simp [mps_secular_ga_regenerate_coefficients, mp_abort_state, state, regenerate_rows,
      regenerate_row, set_b, arr, idle, call]
    norm_num
  · norm_num [mps_secular_ga_regenerate_coefficients, mp_abort_state, state, regenerate_rows,
      regenerate_row, set_b, arr, idle, call]

section Rollback

variable {K R X : Type} [Field K] [DecidableEq K] {n : Nat}

/-- C3: in the DPE phase, when some approximation `droot[i]` equals some coefficient
`bdpc[j]` (so that the regeneration meets a zero difference), every `adpc[k]` and every
`bdpc[k]` with `k < n` has after the call the value it had before it. -/
theorem regenerate_dpe_abort_rollback (c : Collaborators K R X n) (s : mps_status K R X n)
    (hphase : s.lastphase = mps_phase.dpe_phase)
    (hsing : ∃ i < n, ∃ j < n, s.droot i = s.sec.bdpc j) :
    ∀ k < n,
      (mps_secular_ga_regenerate_coefficients c s).sec.adpc k = s.sec.adpc k ∧
      (mps_secular_ga_regenerate_coefficients c s).sec.bdpc k = s.sec.bdpc k := by
  intro k hk
  have hsing1 : ∃ i < n, ∃ j < n, set_b n s.droot s.sec.bdpc i = s.sec.bdpc j := by
    obtain ⟨i, hi, j, hj, hij⟩ := hsing
    exact ⟨i, hi, j, hj, by rw [set_b_lt n _ _ hi]; exact hij⟩
  obtain ⟨a1, ha1⟩ := regenerate_rows_singular s.sec.adpc s.sec.bdpc
    (set_b n s.droot s.sec.bdpc) n s.sec.adpc n hsing1
  simp only [mps_secular_ga_regenerate_coefficients, hphase, ha1]
  exact ⟨restore_lt n _ _ hk, restore_lt n _ _ hk⟩

/-- Witness of C3 on `dpe_abort_state`, at index 0. -/
theorem regenerate_dpe_abort_rollback_witness :
    dpe_abort_state.lastphase = mps_phase.dpe_phase ∧
    dpe_abort_state.droot 1 = dpe_abort_state.sec.bdpc 1 ∧
    (mps_secular_ga_regenerate_coefficients (idle 2) dpe_abort_state).sec.adpc 0 =
      dpe_abort_state.sec.adpc 0 ∧
    (mps_secular_ga_regenerate_coefficients (idle 2) dpe_abort_state).sec.bdpc 0 =
      dpe_abort_state.sec.bdpc 0 :=
  ⟨rfl, rfl,
    regenerate_dpe_abort_rollback (idle 2) dpe_abort_state rfl
      ⟨1, by decide, 1, by decide, rfl⟩ 0 (by decide)⟩

end Rollback

/-! ## Regeneration: the successful path -/

/-- The closed form over the overwritten array `b` is the closed form over the
approximations. -/
theorem closed_form_set_b {K : Type} [Field K] (n : Nat) (A B z : Nat → K) {i : Nat} (hi : i < n) :
    ((∑ j in Finset.range n, A j / (set_b n z B i - B j)) - 1) *
        ((∏ j in Finset.range n, (set_b n z B i - B j)) /
          ∏ j in (Finset.range n).filter (fun j => j ≠ i), (set_b n z B i - set_b n z B j)) =
      ((∑ j in Finset.range n, A j / (z i - B j)) - 1) *
        (∏ j in Finset.range n, (z i - B j)) /
          ∏ j in (Finset.range n).filter (fun j => j ≠ i), (z i - z j) := by
  have hden : ∏ j in (Finset.range n).filter (fun j => j ≠ i),
      (set_b n z B i - set_b n z B j) =
      ∏ j in (Finset.range n).filter (fun j => j ≠ i), (z i - z j) := by
    refine Finset.prod_congr rfl (fun j hj => ?_)
    rw [set_b_lt n z B hi, set_b_lt n z B (Finset.mem_range.mp (Finset.mem_filter.mp hj).1)]
  rw [hden, set_b_lt n z B hi, mul_div_assoc]

theorem call_lastphase {K R X : Type} {n : Nat} (ev : Call)
    (f : mps_status K R X n → mps_status K R X n) (s : mps_status K R X n) :
    (call ev f s).lastphase = (f s).lastphase := rfl

theorem call_root {K R X : Type} {n : Nat} (ev : Call)
    (f : mps_status K R X n → mps_status K R X n) (s : mps_status K R X n) (p : mps_phase) :
    (call ev f s).root p = (f s).root p := by
  cases p <;> rfl

theorem call_sec {K R X : Type} {n : Nat} (ev : Call)
    (f : mps_status K R X n → mps_status K R X n) (s : mps_status K R X n) :
    (call ev f s).sec = (f s).sec := rfl

theorem call_trace {K R X : Type} {n : Nat} (ev : Call)
    (f : mps_status K R X n → mps_status K R X n) (s : mps_status K R X n) :
    (call ev f s).trace = s.trace ++ [ev] := rfl

section Success

variable {K R X : Type} [Field K] [DecidableEq K] {n : Nat}

/-- The coefficients of the live kind after a regeneration that meets no zero
difference, when the start routine and `mps_secular_set_radii` leave the coefficients
alone. -/
theorem regenerate_success (c : Collaborators K R X n) (s : mps_status K R X n)
    (hsec : start_keeps c (fun t => t.sec))
    (hns : ∀ i < n, ∀ j < n, s.root s.lastphase i ≠ s.sec.b s.lastphase j) :
    (mps_secular_ga_regenerate_coefficients c s).sec.b s.lastphase =
      set_b n (s.root s.lastphase) (s.sec.b s.lastphase) ∧
    (mps_secular_ga_regenerate_coefficients c s).sec.a s.lastphase =
      fun k => if k < n then
        ((∑ j in Finset.range n, s.sec.a s.lastphase j /
            (set_b n (s.root s.lastphase) (s.sec.b s.lastphase) k - s.sec.b s.lastphase j)) - 1) *
          ((∏ j in Finset.range n,
              (set_b n (s.root s.lastphase) (s.sec.b s.lastphase) k - s.sec.b s.lastphase j)) /
            ∏ j in (Finset.range n).filter (fun j => j ≠ k),
              (set_b n (s.root s.lastphase) (s.sec.b s.lastphase) k -
                set_b n (s.root s.lastphase) (s.sec.b s.lastphase) j))
        else s.sec.a s.lastphase k := by
  obtain ⟨hf, hd, hm, hr⟩ := hsec
  have hf1 : ∀ t, (c.mps_secular_fstart t).sec = t.sec := hf
  have hd1 : ∀ t, (c.mps_secular_dstart t).sec = t.sec := hd
  have hm1 : ∀ t, (c.mps_secular_mstart t).sec = t.sec := hm
  have hr1 : ∀ t, (c.mps_secular_set_radii t).sec = t.sec := hr
  have hns1 : ∀ i < n, ∀ j < n,
      set_b n (s.root s.lastphase) (s.sec.b s.lastphase) i ≠ s.sec.b s.lastphase j := by
    intro i hi j hj
    rw [set_b_lt n _ _ hi]
    exact hns i hi j hj
  have hrows := regenerate_rows_computed (s.sec.a s.lastphase) (s.sec.b s.lastphase)
    (set_b n (s.root s.lastphase) (s.sec.b s.lastphase)) n (s.sec.a s.lastphase) n hns1
  cases hp : s.lastphase with
  | float_phase =>
    rw [hp] at hrows
    simp only [mps_status.root, mps_secular_equation.a, mps_secular_equation.b] at hrows ⊢
    simp only [mps_secular_ga_regenerate_coefficients, hp, hrows, call, hr1, hf1, and_self]
  | dpe_phase =>
    rw [hp] at hrows
    simp only [mps_status.root, mps_secular_equation.a, mps_secular_equation.b] at hrows ⊢
    simp only [mps_secular_ga_regenerate_coefficients, hp, hrows, call, hr1, hd1, and_self]
  | mp_phase =>
    rw [hp] at hrows
    simp only [mps_status.root, mps_secular_equation.a, mps_secular_equation.b] at hrows ⊢
    simp only [mps_secular_ga_regenerate_coefficients, hp, hrows, call, hr1, hm1, and_self]

/-- A regeneration that meets no zero difference leaves the phase and the approximations
to the start routine and to `mps_secular_set_radii`. -/
theorem regenerate_success_frame (c : Collaborators K R X n) (s : mps_status K R X n)
    (hroot : start_keeps c (fun t => (t.froot, t.droot, t.mroot)))
    (hphase : start_keeps c (fun t => t.lastphase))
    (hns : ∀ i < n, ∀ j < n, s.root s.lastphase i ≠ s.sec.b s.lastphase j) :
    (mps_secular_ga_regenerate_coefficients c s).lastphase = s.lastphase ∧
    ∀ p, (mps_secular_ga_regenerate_coefficients c s).root p = s.root p := by
  obtain ⟨hf, hd, hm, hr⟩ := hroot
  obtain ⟨pf, pd, pm, pr⟩ := hphase
  have pf1 : ∀ t, (c.mps_secular_fstart t).lastphase = t.lastphase := pf
  have pd1 : ∀ t, (c.mps_secular_dstart t).lastphase = t.lastphase := pd
  have pm1 : ∀ t, (c.mps_secular_mstart t).lastphase = t.lastphase := pm
  have pr1 : ∀ t, (c.mps_secular_set_radii t).lastphase = t.lastphase := pr
  have key : ∀ (f : mps_status K R X n → mps_status K R X n),
      (∀ t, (fun t : mps_status K R X n => (t.froot, t.droot, t.mroot)) (f t) =
        (fun t : mps_status K R X n => (t.froot, t.droot, t.mroot)) t) →
      ∀ t p, (f t).root p = t.root p := by
    intro f h t p
    have h1 := h t
    simp only [Prod.mk.injEq] at h1
    cases p
    · exact h1.1
    · exact h1.2.1
    · exact h1.2.2
  have hns1 : ∀ i < n, ∀ j < n,
      set_b n (s.root s.lastphase) (s.sec.b s.lastphase) i ≠ s.sec.b s.lastphase j := by
    intro i hi j hj
    rw [set_b_lt n _ _ hi]
    exact hns i hi j hj
  obtain ⟨a1, h1⟩ : ∃ a1, regenerate_rows (s.sec.a s.lastphase) (s.sec.b s.lastphase)
      (set_b n (s.root s.lastphase) (s.sec.b s.lastphase)) n (s.sec.a s.lastphase) n =
      Regen.computed a1 :=
    ⟨_, regenerate_rows_computed _ _ _ n _ n hns1⟩
  have root_sec : ∀ (t : mps_status K R X n) (e : mps_secular_equation K) p,
      ({ t with sec := e } : mps_status K R X n).root p = t.root p := by
    intro t e p
    cases p <;> rfl
  cases hp : s.lastphase with
  | float_phase =>
    rw [hp] at h1
    simp only [mps_status.root, mps_secular_equation.a, mps_secular_equation.b] at h1
    have heq : mps_secular_ga_regenerate_coefficients c s =
        call Call.set_radii c.mps_secular_set_radii
          (call Call.fstart c.mps_secular_fstart
            { s with sec := { s.sec with afpc := a1, bfpc := set_b n s.froot s.sec.bfpc } }) := by
      simp only [mps_secular_ga_regenerate_coefficients, hp, h1]
    rw [heq]
    refine ⟨?_, fun p => ?_⟩
    · rw [call_lastphase, pr1, call_lastphase, pf1]
      exact hp
    · rw [call_root, key _ hr, call_root, key _ hf, root_sec]
  | dpe_phase =>
    rw [hp] at h1
    simp only [mps_status.root, mps_secular_equation.a, mps_secular_equation.b] at h1
    have heq : mps_secular_ga_regenerate_coefficients c s =
        call Call.set_radii c.mps_secular_set_radii
          (call Call.dstart c.mps_secular_dstart
            { s with sec := { s.sec with adpc := a1, bdpc := set_b n s.droot s.sec.bdpc } }) := by
      simp only [mps_secular_ga_regenerate_coefficients, hp, h1]
    rw [heq]
    refine ⟨?_, fun p => ?_⟩
    · rw [call_lastphase, pr1, call_lastphase, pd1]
      exact hp
    · rw [call_root, key _ hr, call_root, key _ hd, root_sec]
  | mp_phase =>
    rw [hp] at h1
    simp only [mps_status.root, mps_secular_equation.a, mps_secular_equation.b] at h1
    have heq : mps_secular_ga_regenerate_coefficients c s =
        call Call.set_radii c.mps_secular_set_radii
          (call Call.mstart c.mps_secular_mstart
            { s with sec := { s.sec with ampc := a1, bmpc := set_b n s.mroot s.sec.bmpc } }) := by
      simp only [mps_secular_ga_regenerate_coefficients, hp, h1]
    rw [heq]
    refine ⟨?_, fun p => ?_⟩
    · rw [call_lastphase, pr1, call_lastphase, pm1]
      exact hp
    · rw [call_root, key _ hr, call_root, key _ hm, root_sec]

/-- A regeneration called when every `b_k` already equals the approximation of root `k`
meets a zero difference in row 0 and changes no coefficient of the live kind. -/
theorem regenerate_fixed (c : Collaborators K R X n) (t : mps_status K R X n)
    (hsec : start_keeps c (fun t => t.sec))
    (hfix : ∀ k < n, t.root t.lastphase k = t.sec.b t.lastphase k) :
    ∀ k < n,
      (mps_secular_ga_regenerate_coefficients c t).sec.a t.lastphase k =
        t.sec.a t.lastphase k ∧
      (mps_secular_ga_regenerate_coefficients c t).sec.b t.lastphase k =
        t.sec.b t.lastphase k := by
  obtain ⟨_, _, hm, hr⟩ := hsec
  have hm1 : ∀ t, (c.mps_secular_mstart t).sec = t.sec := hm
  have hr1 : ∀ t, (c.mps_secular_set_radii t).sec = t.sec := hr
  intro k hk
  obtain ⟨m, rfl⟩ : ∃ m, n = m + 1 := ⟨n - 1, by omega⟩
  have hzero : ∃ j < m + 1,
      set_b (m + 1) (t.root t.lastphase) (t.sec.b t.lastphase) 0 = t.sec.b t.lastphase j :=
    ⟨0, Nat.succ_pos m, by rw [set_b_lt _ _ _ (Nat.succ_pos m)]; exact hfix 0 (Nat.succ_pos m)⟩
  have hrows := regenerate_rows_singular_zero (t.sec.a t.lastphase) (t.sec.b t.lastphase)
    (set_b (m + 1) (t.root t.lastphase) (t.sec.b t.lastphase)) (m + 1) (t.sec.a t.lastphase)
    m hzero
  have hfix1 := hfix k hk
  cases hp : t.lastphase with
  | float_phase =>
    rw [hp] at hrows hfix1
    have hfix0 := hfix 0 (Nat.succ_pos m)
    rw [hp] at hfix0
    simp only [mps_status.root, mps_secular_equation.a, mps_secular_equation.b]
      at hrows hfix1 hfix0 ⊢
    simp only [mps_secular_ga_regenerate_coefficients, hp, hrows]
    refine ⟨by simp, ?_⟩
    by_cases hk0 : k = 0
    · subst hk0
      simp
    · rw [Function.update_noteq hk0, set_b_lt _ _ _ hk]
      exact hfix1
  | dpe_phase =>
    rw [hp] at hrows
    simp only [mps_status.root, mps_secular_equation.a, mps_secular_equation.b] at hrows ⊢
    simp only [mps_secular_ga_regenerate_coefficients, hp, hrows]
    exact ⟨restore_lt _ _ _ hk, restore_lt _ _ _ hk⟩
  | mp_phase =>
    rw [hp] at hrows
    simp only [mps_status.root, mps_secular_equation.a, mps_secular_equation.b] at hrows ⊢
    simp only [mps_secular_ga_regenerate_coefficients, hp, hrows, call, hr1, hm1]
    exact ⟨trivial, restore_lt _ _ _ hk⟩

/-- The values a regeneration without zero difference leaves in row `i`, and the final
values of the accumulators of its inner loop. -/
theorem regenerate_closed_form (c : Collaborators K R X n) (s : mps_status K R X n)
    (hsec : start_keeps c (fun t => t.sec))
    (hns : ∀ i < n, ∀ j < n, s.root s.lastphase i ≠ s.sec.b s.lastphase j) :
    ∀ i < n,
      (mps_secular_ga_regenerate_coefficients c s).sec.b s.lastphase i =
        s.root s.lastphase i ∧
      (mps_secular_ga_regenerate_coefficients c s).sec.a s.lastphase i =
        ((∑ j in Finset.range n,
            s.sec.a s.lastphase j / (s.root s.lastphase i - s.sec.b s.lastphase j)) - 1) *
          (∏ j in Finset.range n, (s.root s.lastphase i - s.sec.b s.lastphase j)) /
          ∏ j in (Finset.range n).filter (fun j => j ≠ i),
            (s.root s.lastphase i - s.root s.lastphase j) ∧
      regenerate_row (s.sec.a s.lastphase) (s.sec.b s.lastphase)
          (set_b n (s.root s.lastphase) (s.sec.b s.lastphase)) i n =
        some ((∏ j in Finset.range n, (s.root s.lastphase i - s.sec.b s.lastphase j)) /
                ∏ j in (Finset.range n).filter (fun j => j ≠ i),
                  (s.root s.lastphase i - s.root s.lastphase j),
              ∑ j in Finset.range n,
                s.sec.a s.lastphase j / (s.root s.lastphase i - s.sec.b s.lastphase j)) := by
  intro i hi
  obtain ⟨hb, ha⟩ := regenerate_success c s hsec hns
  refine ⟨?_, ?_, ?_⟩
  · rw [hb, set_b_lt n _ _ hi]
  · rw [ha]
    simp only [hi, if_true]
    exact closed_form_set_b n _ _ _ hi
  · rw [regenerate_row_some _ _ _ i n (fun j hj => by
      rw [set_b_lt n _ _ hi]; exact hns i hi j hj)]
    have hden : ∏ j in (Finset.range n).filter (fun j => j ≠ i),
        (set_b n (s.root s.lastphase) (s.sec.b s.lastphase) i -
          set_b n (s.root s.lastphase) (s.sec.b s.lastphase) j) =
        ∏ j in (Finset.range n).filter (fun j => j ≠ i),
          (s.root s.lastphase i - s.root s.lastphase j) := by
      refine Finset.prod_congr rfl (fun j hj => ?_)
      rw [set_b_lt n _ _ hi,
        set_b_lt n _ _ (Finset.mem_range.mp (Finset.mem_filter.mp hj).1)]
    rw [hden, set_b_lt n _ _ hi]

/-- C4, amended: in every kind, when the approximations `z_i` are pairwise distinct and none
of them equals an old `B_j`, and the start routine and `mps_secular_set_radii` leave the
coefficients alone, the regeneration sets `b_i = z_i` and
`a_i = ((Σ_j A_j / (z_i - B_j)) - 1) · Π_j (z_i - B_j) / Π_{j ≠ i} (z_i - z_j)`
for every `i < n`, with `A`, `B` the coefficients before the call. The denominator
`Π_{j ≠ i} (z_i - z_j)` is not zero, no pass of the inner loop of row `i` divides by zero,
and its accumulators `prod_b` and `sec_ev` end as `Π_j (z_i - B_j) / Π_{j ≠ i} (z_i - z_j)`
and `Σ_j A_j / (z_i - B_j)`. -/
theorem regenerate_formula (c : Collaborators K R X n) (s : mps_status K R X n)
    (hsec : start_keeps c (fun t => t.sec))
    (hdist : ∀ i < n, ∀ j < n, i ≠ j → s.root s.lastphase i ≠ s.root s.lastphase j)
    (hns : ∀ i < n, ∀ j < n, s.root s.lastphase i ≠ s.sec.b s.lastphase j) :
    ∀ i < n,
      (mps_secular_ga_regenerate_coefficients c s).sec.b s.lastphase i =
        s.root s.lastphase i ∧
      (mps_secular_ga_regenerate_coefficients c s).sec.a s.lastphase i =
        ((∑ j in Finset.range n,
            s.sec.a s.lastphase j / (s.root s.lastphase i - s.sec.b s.lastphase j)) - 1) *
          (∏ j in Finset.range n, (s.root s.lastphase i - s.sec.b s.lastphase j)) /
          ∏ j in (Finset.range n).filter (fun j => j ≠ i),
            (s.root s.lastphase i - s.root s.lastphase j) ∧
      (∏ j in (Finset.range n).filter (fun j => j ≠ i),
        (s.root s.lastphase i - s.root s.lastphase j)) ≠ 0 ∧
      regenerate_row_checked (s.sec.a s.lastphase) (s.sec.b s.lastphase)
          (set_b n (s.root s.lastphase) (s.sec.b s.lastphase)) i n =
        Row.value
          ((∏ j in Finset.range n, (s.root s.lastphase i - s.sec.b s.lastphase j)) /
            ∏ j in (Finset.range n).filter (fun j => j ≠ i),
              (s.root s.lastphase i - s.root s.lastphase j))
          (∑ j in Finset.range n,
            s.sec.a s.lastphase j / (s.root s.lastphase i - s.sec.b s.lastphase j)) := by
  intro i hi
  obtain ⟨hb, ha, hrow⟩ := regenerate_closed_form c s hsec hns i hi
  refine ⟨hb, ha, ?_, ?_⟩
  · refine Finset.prod_ne_zero_iff.mpr (fun j hj => ?_)
    obtain ⟨hjn, hji⟩ := Finset.mem_filter.mp hj
    exact sub_ne_zero.mpr (hdist i hi j (Finset.mem_range.mp hjn) (fun e => hji e.symm))
  · refine regenerate_row_checked_value _ _ _ i n (fun j hj => ?_) (fun j hj hij => ?_) _ _ hrow
    · rw [set_b_lt n _ _ hi]
      exact hns i hi j hj
    · rw [set_b_lt n _ _ hi, set_b_lt n _ _ hj]
      exact hdist i hi j hj hij

/-- C6: in every kind, after a regeneration that met no zero difference, a second
regeneration made with the approximations unchanged (the start routine and
`mps_secular_set_radii` leaving phase, approximations and coefficients alone) leaves
every `a_k` and `b_k` with `k < n` at the value the first call produced. -/
theorem regenerate_idempotent (c : Collaborators K R X n) (s : mps_status K R X n)
    (hsec : start_keeps c (fun t => t.sec))
    (hroot : start_keeps c (fun t => (t.froot, t.droot, t.mroot)))
    (hphase : start_keeps c (fun t => t.lastphase))
    (hns : ∀ i < n, ∀ j < n, s.root s.lastphase i ≠ s.sec.b s.lastphase j) :
    ∀ k < n,
      (mps_secular_ga_regenerate_coefficients c
          (mps_secular_ga_regenerate_coefficients c s)).sec.a s.lastphase k =
        (mps_secular_ga_regenerate_coefficients c s).sec.a s.lastphase k ∧
      (mps_secular_ga_regenerate_coefficients c
          (mps_secular_ga_regenerate_coefficients c s)).sec.b s.lastphase k =
        (mps_secular_ga_regenerate_coefficients c s).sec.b s.lastphase k := by
  obtain ⟨hp, hz⟩ := regenerate_success_frame c s hroot hphase hns
  obtain ⟨hb, _⟩ := regenerate_success c s hsec hns
  have hfix : ∀ k < n,
      (mps_secular_ga_regenerate_coefficients c s).root
          (mps_secular_ga_regenerate_coefficients c s).lastphase k =
        (mps_secular_ga_regenerate_coefficients c s).sec.b
          (mps_secular_ga_regenerate_coefficients c s).lastphase k := by
    intro k hk
    rw [hp, hz, hb, set_b_lt n _ _ hk]
  intro k hk
  have := regenerate_fixed c (mps_secular_ga_regenerate_coefficients c s) hsec hfix k hk
  rw [hp] at this
  exact this

end Success

/-! ## The numerator polynomial of a secular equation -/

section SecularPolynomial

open Polynomial

variable {K : Type} [Field K]

end SecularPolynomial

/-! ## Regeneration: the secular equation is preserved -/

section Preservation

variable {K R X : Type} [Field K] [DecidableEq K] {n : Nat}

end Preservation

/-! ## Witnesses of the regeneration theorems -/

theorem idle_start_keeps {α : Type} (n : Nat) (proj : mps_status ℚ ℚ Unit n → α) :
    start_keeps (idle n) proj :=
  ⟨fun _ => rfl, fun _ => rfl, fun _ => rfl, fun _ => rfl⟩

theorem two_roots_state_regular :
    ∀ i < 2, ∀ j < 2, two_roots_state.root two_roots_state.lastphase i ≠
      two_roots_state.sec.b two_roots_state.lastphase j := by
  intro i hi j hj
  interval_cases i <;> interval_cases j <;>
    norm_num [two_roots_state, state, arr, mps_status.root, mps_secular_equation.b]

theorem two_roots_state_distinct :
    ∀ i < 2, ∀ j < 2, i ≠ j → two_roots_state.root two_roots_state.lastphase i ≠
      two_roots_state.root two_roots_state.lastphase j := by
  intro i hi j hj hij
  interval_cases i <;> interval_cases j <;>
    first
    | exact absurd rfl hij
    | norm_num [two_roots_state, state, arr, mps_status.root]

/-- Counterexample to C4 as stated, on `repeated_roots_state` (`a = [1, 1]`, `b = [0, 2]`,
`z = [3, 3]`): no approximation equals an old `B_j`, yet `z_0 = z_1`, so that the second
pass of the inner loop of row 0 divides `prod_b` by `b_0 - b_1 = 0` and the row has no
value; and the claimed `a_0` is the quotient of `(Σ_j A_j / (z_0 - B_j) - 1) · Π_j (z_0 - B_j) = 1`
by `Π_{j ≠ 0} (z_0 - z_j) = 0`, which no number `v` is: `v · 0 ≠ 1`; in particular the
value the regeneration leaves in `afpc[0]` is not. -/
theorem regenerate_formula_repeated_roots :
    (∀ i < 2, ∀ j < 2, repeated_roots_state.root repeated_roots_state.lastphase i ≠
      repeated_roots_state.sec.b repeated_roots_state.lastphase j) ∧
    repeated_roots_state.froot 0 = repeated_roots_state.froot 1 ∧
    regenerate_row_checked repeated_roots_state.sec.afpc repeated_roots_state.sec.bfpc
      (set_b 2 repeated_roots_state.froot repeated_roots_state.sec.bfpc) 0 2 = Row.undefined ∧
    (∀ v : ℚ,
      v * ∏ j in (Finset.range 2).filter (fun j => j ≠ 0),
          (repeated_roots_state.froot 0 - repeated_roots_state.froot j) ≠
        ((∑ j in Finset.range 2, repeated_roots_state.sec.afpc j /
            (repeated_roots_state.froot 0 - repeated_roots_state.sec.bfpc j)) - 1) *
          ∏ j in Finset.range 2,
            (repeated_roots_state.froot 0 - repeated_roots_state.sec.bfpc j)) ∧
    (mps_secular_ga_regenerate_coefficients (idle 2) repeated_roots_state).sec.afpc 0 *
        ∏ j in (Finset.range 2).filter (fun j => j ≠ 0),
          (repeated_roots_state.froot 0 - repeated_roots_state.froot j) ≠
      ((∑ j in Finset.range 2, repeated_roots_state.sec.afpc j /
          (repeated_roots_state.froot 0 - repeated_roots_state.sec.bfpc j)) - 1) *
        ∏ j in Finset.range 2,
          (repeated_roots_state.froot 0 - repeated_roots_state.sec.bfpc j) := by
  have hv : ∀ v : ℚ,
      v * ∏ j in (Finset.range 2).filter (fun j => j ≠ 0),
          (repeated_roots_state.froot 0 - repeated_roots_state.froot j) ≠
        ((∑ j in Finset.range 2, repeated_roots_state.sec.afpc j /
            (repeated_roots_state.froot 0 - repeated_roots_state.sec.bfpc j)) - 1) *
          ∏ j in Finset.range 2,
            (repeated_roots_state.froot 0 - repeated_roots_state.sec.bfpc j) := by
    intro v
    rw [Finset.prod_filter]
    norm_num [repeated_roots_state, state, arr, Finset.prod_range_succ, Finset.sum_range_succ]
  refine ⟨?_, rfl, ?_, hv, hv _⟩
  · intro i hi j hj
    interval_cases i <;> interval_cases j <;>
      norm_num [repeated_roots_state, state, arr, mps_status.root, mps_secular_equation.b]
  · norm_num [regenerate_row_checked, set_b, repeated_roots_state, state, arr]

/-- Witness of C4 (amended) on `two_roots_state` (`a = [1, 1]`, `b = [0, 2]`,
`z = [3, -1]`): the regenerated coefficients are `b = [3, -1]`,
`a_0 = (1/3 + 1 - 1) · (3 · 1) / (3 - (-1)) = 1/4` and
`a_1 = (-1 - 1/3 - 1) · ((-1) · (-3)) / (-1 - 3) = 7/4`, and the inner loop of row 1 ends with
`prod_b = -3/4` and `sec_ev = -4/3`. -/
theorem regenerate_formula_witness :
    start_keeps (idle 2) (fun t => t.sec) ∧
    (∀ i < 2, ∀ j < 2, i ≠ j → two_roots_state.froot i ≠ two_roots_state.froot j) ∧
    (∀ i < 2, ∀ j < 2, two_roots_state.froot i ≠ two_roots_state.sec.bfpc j) ∧
    (mps_secular_ga_regenerate_coefficients (idle 2) two_roots_state).sec.bfpc 0 = 3 ∧
    (mps_secular_ga_regenerate_coefficients (idle 2) two_roots_state).sec.bfpc 1 = -1 ∧
    (mps_secular_ga_regenerate_coefficients (idle 2) two_roots_state).sec.afpc 0 = 1 / 4 ∧
    (mps_secular_ga_regenerate_coefficients (idle 2) two_roots_state).sec.afpc 1 = 7 / 4 ∧
    regenerate_row_checked two_roots_state.sec.afpc two_roots_state.sec.bfpc
        (set_b 2 two_roots_state.froot two_roots_state.sec.bfpc) 1 2 =
      Row.value (-3 / 4) (-4 / 3) := by
  have h := regenerate_formula (idle 2) two_roots_state (idle_start_keeps 2 _)
    two_roots_state_distinct two_roots_state_regular
  have h0 := h 0 (by decide)
  have h1 := h 1 (by decide)
  refine ⟨idle_start_keeps 2 _, two_roots_state_distinct, two_roots_state_regular,
    h0.1.trans ?_, h1.1.trans ?_, h0.2.1.trans ?_, h1.2.1.trans ?_, h1.2.2.2.trans ?_⟩
  · norm_num [two_roots_state, state, arr, mps_status.root]
  · norm_num [two_roots_state, state, arr, mps_status.root]
  · rw [Finset.prod_filter]
    norm_num [two_roots_state, state, arr, mps_status.root, mps_secular_equation.a,
      mps_secular_equation.b, Finset.prod_range_succ, Finset.sum_range_succ]
  · rw [Finset.prod_filter]
    norm_num [two_roots_state, state, arr, mps_status.root, mps_secular_equation.a,
      mps_secular_equation.b, Finset.prod_range_succ, Finset.sum_range_succ]
  · rw [Finset.prod_filter]
    norm_num [two_roots_state, state, arr, mps_status.root, mps_secular_equation.a,
      mps_secular_equation.b, Finset.prod_range_succ, Finset.sum_range_succ]

/-- Witness of C6 on `two_roots_state`, at index 1. -/
theorem regenerate_idempotent_witness :
    start_keeps (idle 2) (fun t => t.sec) ∧
    start_keeps (idle 2) (fun t => (t.froot, t.droot, t.mroot)) ∧
    start_keeps (idle 2) (fun t => t.lastphase) ∧
    (mps_secular_ga_regenerate_coefficients (idle 2)
        (mps_secular_ga_regenerate_coefficients (idle 2) two_roots_state)).sec.afpc 1 =
      (mps_secular_ga_regenerate_coefficients (idle 2) two_roots_state).sec.afpc 1 ∧
    (mps_secular_ga_regenerate_coefficients (idle 2)
        (mps_secular_ga_regenerate_coefficients (idle 2) two_roots_state)).sec.bfpc 1 =
      (mps_secular_ga_regenerate_coefficients (idle 2) two_roots_state).sec.bfpc 1 :=
  ⟨idle_start_keeps 2 _, idle_start_keeps 2 _, idle_start_keeps 2 _,
    regenerate_idempotent (idle 2) two_roots_state (idle_start_keeps 2 _)
      (idle_start_keeps 2 _) (idle_start_keeps 2 _) two_roots_state_regular 1 (by decide)⟩

/-! ## The stop predicate -/

section Stop

variable {K R X : Type} [LinearOrderedField R] {n : Nat}

/-- C7 (as the code behaves): the `float_phase` case of the `switch` has no `break` and
falls through to the test of the DPE radius. On `float_stop_state` the float target
`10^(-1)` is non-zero and `frad[0] = 0` meets it, yet `mps_secular_ga_check_stop` returns
false because `drad[0] = 1 > 2^(-1)`; with `drad[0]` lowered to `1/4` it returns true, so
the result depends on the DPE radius. -/
theorem check_stop_float_falls_through :
    float_stop_state.lastphase = mps_phase.float_phase ∧
    (idle 1).pow10 (-float_stop_state.prec_out) ≠ 0 ∧
    (∀ i < 1, float_stop_state.frad i ≤ (idle 1).pow10 (-float_stop_state.prec_out)) ∧
    mps_secular_ga_check_stop (idle 1) float_stop_state = false ∧
    mps_secular_ga_check_stop (idle 1)
      { float_stop_state with drad := fun _ => 1 / 4 } = true := by
  refine ⟨rfl, ?_, ?_, ?_, ?_⟩
  · norm_num [idle, float_stop_state, state]
  · intro i hi
    obtain rfl : i = 0 := by omega
    norm_num [idle, float_stop_state, state, arr]
  · norm_num [mps_secular_ga_check_stop, check_stop_body, idle, float_stop_state, state, arr,
      rdpe_set_2dl]
  · norm_num [mps_secular_ga_check_stop, check_stop_body, idle, float_stop_state, state, arr,
      rdpe_set_2dl]

/-- C8: in the DPE and MP phases `mps_secular_ga_check_stop` returns true exactly when
`drad[i] ≤ 2^(-prec_out)` for every `i < n`; neither `frad` nor the value of
`pow(10, -prec_out)` enters the result. -/
theorem check_stop_dpe_mp (c : Collaborators K R X n) (s : mps_status K R X n)
    (hphase : s.lastphase = mps_phase.dpe_phase ∨ s.lastphase = mps_phase.mp_phase) :
    mps_secular_ga_check_stop c s = true ↔ ∀ i < n, s.drad i ≤ (2 : R) ^ (-s.prec_out) := by
  have hnf : s.lastphase ≠ mps_phase.float_phase := by
    rcases hphase with h | h <;> rw [h] <;> decide
  simp only [mps_secular_ga_check_stop, hnf, and_false, if_false, List.all_eq_true,
    List.mem_range, rdpe_set_2dl, one_mul]
  refine forall_congr' (fun i => forall_congr' (fun _ => ?_))
  rcases hphase with h | h <;> simp [check_stop_body, h, not_lt]

/-- Witness of C8 on `mp_stop_state`: the radius `1/4` is below `2^(-1)`, and the check
succeeds although `frad[0] = 7` is far above `10^(-1)`. -/
theorem check_stop_dpe_mp_witness :
    mp_stop_state.lastphase = mps_phase.mp_phase ∧
    mps_secular_ga_check_stop (idle 1) mp_stop_state = true := by
  refine ⟨rfl, (check_stop_dpe_mp (idle 1) mp_stop_state (Or.inr rfl)).mpr ?_⟩
  intro i hi
  obtain rfl : i = 0 := by omega
  norm_num [mp_stop_state, state, arr]

end Stop

/-! ## Packets: the loops -/

section PacketLoops

variable {K R X : Type} {n : Nat}

/-- Invariants of a `for` loop: `P k` holds after `k` passes. -/
theorem for_loop_invariant {σ : Type} (body : Nat → σ → σ) (P : Nat → σ → Prop) (m : Nat)
    (st : σ) (h0 : P 0 st) (hstep : ∀ k < m, ∀ t, P k t → P (k + 1) (body k t)) :
    ∀ k ≤ m, P k (for_loop body k st) := by
  intro k
  induction k with
  | zero => exact fun _ => h0
  | succ k ih =>
    intro hk
    exact hstep k hk _ (ih (Nat.le_of_succ_le hk))

/-- Invariants of the `while` loop of a packet. -/
theorem while_loop_invariant (body : Nat → Packet K R X n → Packet K R X n) (bound : Int)
    (P : Packet K R X n → Prop) (hsweep : ∀ p, P p → P (sweep body p)) :
    ∀ fuel p, P p → P (while_loop body bound fuel p) := by
  intro fuel
  induction fuel with
  | zero => exact fun p hp => hp
  | succ fuel ih =>
    intro p hp
    rw [while_loop]
    split
    · exact ih _ (hsweep p hp)
    · exact hp

theorem inactive_succ (k : Nat) (g : Nat → Bool) :
    inactive (k + 1) g = inactive k g + if g k then 0 else 1 := by
  unfold inactive
  rw [Finset.range_succ, Finset.filter_insert]
  cases hg : g k with
  | true => simp
  | false =>
    simp only [if_true]
    rw [Finset.card_insert_of_not_mem]
    · simp
    · simp

theorem inactive_congr (k : Nat) (f g : Nat → Bool) (h : ∀ j < k, g j = f j) :
    inactive k g = inactive k f := by
  unfold inactive
  congr 1
  refine Finset.filter_congr (fun j hj => ?_)
  rw [h j (Finset.mem_range.mp hj)]

theorem inactive_le (k : Nat) (f : Nat → Bool) : inactive k f ≤ k := by
  unfold inactive
  exact (Finset.card_filter_le _ _).trans (Finset.card_range k).le

/-- Writing the flag of one active root below `m` changes the number of inactive roots by
one exactly when the flag is cleared. -/
theorem inactive_update (m : Nat) (f g : Nat → Bool) (k : Nat) (hk : k < m)
    (hfk : f k = true) (hg : ∀ j, j ≠ k → g j = f j) :
    inactive m g = if g k then inactive m f else inactive m f + 1 := by
  induction m with
  | zero => exact absurd hk (Nat.not_lt_zero k)
  | succ m ih =>
    rw [inactive_succ, inactive_succ m f]
    rcases Nat.lt_succ_iff_lt_or_eq.mp hk with hlt | heq
    · have hm : m ≠ k := fun h => by omega
      rw [ih hlt, hg m hm]
      split <;> omega
    · subst heq
      rw [inactive_congr k f g (fun j hj => hg j (by omega)), hfk]
      cases g k <;> simp

/-- One pass of a sweep keeps `computed_roots` equal to the number of inactive roots. -/
theorem body_inactive {newton : mps_status K R X n → Nat → mps_status K R X n × K}
    {ev_newton ev_aberth : Nat → Call} {body : Nat → Packet K R X n → Packet K R X n}
    (hb : BodySpec newton ev_newton ev_aberth body) (hw : writes_own_flag newton)
    (i : Nat) (hi : i < n) (p : Packet K R X n)
    (hp : p.computed_roots = inactive n p.s.again) :
    (body i p).computed_roots = inactive n (body i p).s.again := by
  cases ha : p.s.again i with
  | false => rw [hb.skip i p ha]; exact hp
  | true =>
    rw [hb.computed i p ha, hb.flags i p ha,
      inactive_update n p.s.again (newton p.s i).1.again i hi ha (fun j hj => hw p.s i j hj), hp]

/-- A packet keeps `computed_roots` equal to the number of inactive roots. -/
theorem while_loop_inactive {newton : mps_status K R X n → Nat → mps_status K R X n × K}
    {ev_newton ev_aberth : Nat → Call} {body : Nat → Packet K R X n → Packet K R X n}
    (hb : BodySpec newton ev_newton ev_aberth body) (hw : writes_own_flag newton)
    (bound : Int) (fuel : Nat) (p : Packet K R X n)
    (hp : p.computed_roots = inactive n p.s.again) :
    (while_loop body bound fuel p).computed_roots =
      inactive n (while_loop body bound fuel p).s.again := by
  refine while_loop_invariant body bound
    (fun q => q.computed_roots = inactive n q.s.again) (fun q hq => ?_) fuel p hp
  exact for_loop_invariant body (fun _ t => t.computed_roots = inactive n t.s.again) n
    { q with iterations := q.iterations + 1 } hq
    (fun k hk t ht => body_inactive hb hw k hk t ht) n (Nat.le_refl n)

/-- The flags after `k` passes of the loop that sets them to true. -/
theorem again_reset_inactive (s : mps_status K R X n) :
    inactive n (again_reset s).again = 0 := by
  refine for_loop_invariant
    (fun i (t : mps_status K R X n) => { t with again := Function.update t.again i true })
    (fun k t => inactive k t.again = 0) n s rfl (fun k _ t ht => ?_) n (Nat.le_refl n)
  show inactive (k + 1) (Function.update t.again k true) = 0
  rw [inactive_succ]
  simp only [Function.update_same, if_true, Nat.add_zero]
  rw [inactive_congr k t.again _ (fun j hj => Function.update_noteq (by omega) _ _)]
  exact ht

theorem again_reset_trace (s : mps_status K R X n) : (again_reset s).trace = s.trace :=
  for_loop_invariant
    (fun i (t : mps_status K R X n) => { t with again := Function.update t.again i true })
    (fun _ t => t.trace = s.trace) n s rfl (fun _ _ _ ht => ht) n (Nat.le_refl n)

end PacketLoops

section PacketReset

variable {K R X : Type} [LinearOrderedField R] {n : Nat}

/-- The first loop of `mps_secular_ga_miterate` counts the roots it marks inactive, and
calls no collaborator. -/
theorem miterate_reset_spec (drad : R) (s : mps_status K R X n) :
    (for_loop (miterate_reset_body drad) n
        ({ s := s, computed_roots := 0, iterations := 0 } : Packet K R X n)).computed_roots =
      inactive n (for_loop (miterate_reset_body drad) n
        ({ s := s, computed_roots := 0, iterations := 0 } : Packet K R X n)).s.again ∧
    (for_loop (miterate_reset_body drad) n
        ({ s := s, computed_roots := 0, iterations := 0 } : Packet K R X n)).iterations = 0 ∧
    (for_loop (miterate_reset_body drad) n
        ({ s := s, computed_roots := 0, iterations := 0 } : Packet K R X n)).s.trace =
      s.trace := by
  refine for_loop_invariant (miterate_reset_body drad)
    (fun k (q : Packet K R X n) => q.computed_roots = inactive k q.s.again ∧
      q.iterations = 0 ∧ q.s.trace = s.trace) n _ ⟨rfl, rfl, rfl⟩ (fun k _ q hq => ?_) n
    (Nat.le_refl n)
  obtain ⟨h1, h2, h3⟩ := hq
  have hc : ∀ b : Bool, inactive k (Function.update q.s.again k b) = inactive k q.s.again :=
    fun b => inactive_congr k q.s.again _ (fun j hj => Function.update_noteq (by omega) _ _)
  unfold miterate_reset_body
  split
  · refine ⟨?_, h2, h3⟩
    show q.computed_roots = inactive (k + 1) (Function.update q.s.again k true)
    rw [inactive_succ, hc]
    simpa using h1
  · refine ⟨?_, h2, h3⟩
    show q.computed_roots + 1 = inactive (k + 1) (Function.update q.s.again k false)
    rw [inactive_succ, hc]
    simpa using h1

end PacketReset

/-! ## Packets: the value returned -/

section PacketValue

variable {K R X : Type} [Field K] [LinearOrderedField R] {n : Nat}

theorem fiterate_body_spec (c : Collaborators K R X n) :
    BodySpec c.mps_secular_fnewton Call.fnewton Call.faberth (fiterate_body c) where
  skip := fun i p h => by simp [fiterate_body, h]
  flags := fun i p h => by simp [fiterate_body, call_newton, h]
  computed := fun i p h => by simp [fiterate_body, call_newton, h]
  iterations := fun i p => by
    unfold fiterate_body
    split <;> rfl
  trace := fun i p h => by simp [fiterate_body, call_newton, h]
  events := fun i k => by
    by_cases h : k = i <;> simp [List.count_cons, h]

theorem diterate_body_spec (c : Collaborators K R X n) :
    BodySpec c.mps_secular_dnewton Call.dnewton Call.daberth (diterate_body c) where
  skip := fun i p h => by simp [diterate_body, h]
  flags := fun i p h => by simp [diterate_body, call_newton, h]
  computed := fun i p h => by simp [diterate_body, call_newton, h]
  iterations := fun i p => by
    unfold diterate_body
    split <;> rfl
  trace := fun i p h => by simp [diterate_body, call_newton, h]
  events := fun i k => by
    by_cases h : k = i <;> simp [List.count_cons, h]

theorem miterate_body_spec (c : Collaborators K R X n) :
    BodySpec c.mps_secular_mnewton Call.mnewton Call.maberth (miterate_body c) where
  skip := fun i p h => by simp [miterate_body, h]
  flags := fun i p h => by simp [miterate_body, call_newton, h]
  computed := fun i p h => by simp [miterate_body, call_newton, h]
  iterations := fun i p => by
    unfold miterate_body
    split <;> rfl
  trace := fun i p h => by simp [miterate_body, call_newton, h]
  events := fun i k => by
    by_cases h : k = i <;> simp [List.count_cons, h]

/-- C9: in each of the three kinds, when of the flags `again` the Newton evaluator writes
only that of the root it is called for, the value returned by the packet is the number
of indices `i < n` with `again[i] = false` at the return; it is at most `n` (and so 0 when
`n = 0`). -/
theorem iterate_returns_inactive (c : Collaborators K R X n) (s : mps_status K R X n)
    (maxit : Int)
    (hf : writes_own_flag c.mps_secular_fnewton)
    (hd : writes_own_flag c.mps_secular_dnewton)
    (hm : writes_own_flag c.mps_secular_mnewton) :
    ((mps_secular_ga_fiterate c s maxit).2 =
        inactive n (mps_secular_ga_fiterate c s maxit).1.again ∧
      (mps_secular_ga_fiterate c s maxit).2 ≤ n) ∧
    ((mps_secular_ga_diterate c s maxit).2 =
        inactive n (mps_secular_ga_diterate c s maxit).1.again ∧
      (mps_secular_ga_diterate c s maxit).2 ≤ n) ∧
    ((mps_secular_ga_miterate c s maxit).2 =
        inactive n (mps_secular_ga_miterate c s maxit).1.again ∧
      (mps_secular_ga_miterate c s maxit).2 ≤ n) := by
  have h0 : (0 : Nat) = inactive n (again_reset s).again := (again_reset_inactive s).symm
  have e1 : (mps_secular_ga_fiterate c s maxit).2 =
      inactive n (mps_secular_ga_fiterate c s maxit).1.again :=
    while_loop_inactive (fiterate_body_spec c) hf (maxit - 1) maxit.toNat
      { s := again_reset s, computed_roots := 0, iterations := 0 } h0
  have e2 : (mps_secular_ga_diterate c s maxit).2 =
      inactive n (mps_secular_ga_diterate c s maxit).1.again :=
    while_loop_inactive (diterate_body_spec c) hd (maxit - 1) maxit.toNat
      { s := again_reset s, computed_roots := 0, iterations := 0 } h0
  have e3 : (mps_secular_ga_miterate c s maxit).2 =
      inactive n (mps_secular_ga_miterate c s maxit).1.again :=
    while_loop_inactive (miterate_body_spec c) hm maxit maxit.toNat _
      (miterate_reset_spec (rdpe_set_2dl 1 (-s.prec_out)) s).1
  exact ⟨⟨e1, e1 ▸ inactive_le n _⟩, ⟨e2, e2 ▸ inactive_le n _⟩, ⟨e3, e3 ▸ inactive_le n _⟩⟩

end PacketValue

theorem idle_writes_own_flag (n : Nat) :
    writes_own_flag (idle n).mps_secular_fnewton ∧
    writes_own_flag (idle n).mps_secular_dnewton ∧
    writes_own_flag (idle n).mps_secular_mnewton :=
  ⟨fun _ _ _ h => Function.update_noteq h _ _, fun _ _ _ h => Function.update_noteq h _ _,
    fun _ _ _ h => Function.update_noteq h _ _⟩

/-- Witness of C9 on `three_roots_state` with the packet size 10 of the driver. -/
theorem iterate_returns_inactive_witness :
    writes_own_flag (idle 3).mps_secular_fnewton ∧
    writes_own_flag (idle 3).mps_secular_dnewton ∧
    writes_own_flag (idle 3).mps_secular_mnewton ∧
    (mps_secular_ga_fiterate (idle 3) three_roots_state 10).2 =
      inactive 3 (mps_secular_ga_fiterate (idle 3) three_roots_state 10).1.again ∧
    (mps_secular_ga_miterate (idle 3) three_roots_state 10).2 ≤ 3 :=
  ⟨(idle_writes_own_flag 3).1, (idle_writes_own_flag 3).2.1, (idle_writes_own_flag 3).2.2,
    (iterate_returns_inactive (idle 3) three_roots_state 10 (idle_writes_own_flag 3).1
      (idle_writes_own_flag 3).2.1 (idle_writes_own_flag 3).2.2).1.1,
    (iterate_returns_inactive (idle 3) three_roots_state 10 (idle_writes_own_flag 3).1
      (idle_writes_own_flag 3).2.1 (idle_writes_own_flag 3).2.2).2.2.2⟩

/-! ## Packets: the number of sweeps -/

section PacketRuns

variable {K R X : Type} {n : Nat}

theorem sweep_iterations {newton : mps_status K R X n → Nat → mps_status K R X n × K}
    {ev_newton ev_aberth : Nat → Call} {body : Nat → Packet K R X n → Packet K R X n}
    (hb : BodySpec newton ev_newton ev_aberth body) (p : Packet K R X n) :
    (sweep body p).iterations = p.iterations + 1 :=
  for_loop_invariant body (fun _ t => t.iterations = p.iterations + 1) n
    { p with iterations := p.iterations + 1 } rfl
    (fun k _ t ht => (hb.iterations k t).trans ht) n (Nat.le_refl n)

/-- In one sweep the Newton evaluator of a root is called at most once. -/
theorem sweep_trace_count {newton : mps_status K R X n → Nat → mps_status K R X n × K}
    {ev_newton ev_aberth : Nat → Call} {body : Nat → Packet K R X n → Packet K R X n}
    (hb : BodySpec newton ev_newton ev_aberth body) (p : Packet K R X n) (i : Nat) :
    List.count (ev_newton i) (sweep body p).s.trace ≤
      List.count (ev_newton i) p.s.trace + 1 := by
  have h := for_loop_invariant body
    (fun k t => List.count (ev_newton i) t.s.trace ≤
      List.count (ev_newton i) p.s.trace + if i < k then 1 else 0) n
    { p with iterations := p.iterations + 1 } (Nat.le_refl _) (fun k _ t ht => ?_) n
    (Nat.le_refl n)
  · refine h.trans (Nat.add_le_add_left ?_ _)
    split <;> omega
  · have ht1 : List.count (ev_newton i) t.s.trace ≤
        List.count (ev_newton i) p.s.trace + if i < k then 1 else 0 := ht
    show List.count (ev_newton i) (body k t).s.trace ≤
      List.count (ev_newton i) p.s.trace + if i < k + 1 then 1 else 0
    cases ha : t.s.again k with
    | false =>
      rw [hb.skip k t ha]
      refine ht1.trans (Nat.add_le_add_left ?_ _)
      split <;> split <;> omega
    | true =>
      rw [hb.trace k t ha, List.count_append, hb.events i k]
      by_cases hki : k = i
      · subst hki
        simp only [Nat.lt_irrefl, if_false, Nat.add_zero] at ht1
        simp only [if_true, Nat.lt_succ_self]
        omega
      · simp only [hki, if_false, Nat.add_zero]
        refine ht1.trans (Nat.add_le_add_left ?_ _)
        split <;> split <;> omega

theorem iterate_sweep_iterations {newton : mps_status K R X n → Nat → mps_status K R X n × K}
    {ev_newton ev_aberth : Nat → Call} {body : Nat → Packet K R X n → Packet K R X n}
    (hb : BodySpec newton ev_newton ev_aberth body) (p : Packet K R X n) (k : Nat) :
    ((sweep body)^[k] p).iterations = p.iterations + k := by
  induction k with
  | zero => rfl
  | succ k ih =>
    rw [Function.iterate_succ_apply', sweep_iterations hb, ih, Nat.add_assoc]

theorem iterate_sweep_trace_count
    {newton : mps_status K R X n → Nat → mps_status K R X n × K}
    {ev_newton ev_aberth : Nat → Call} {body : Nat → Packet K R X n → Packet K R X n}
    (hb : BodySpec newton ev_newton ev_aberth body) (p : Packet K R X n) (i k : Nat) :
    List.count (ev_newton i) ((sweep body)^[k] p).s.trace ≤
      List.count (ev_newton i) p.s.trace + k := by
  induction k with
  | zero => exact Nat.le_refl _
  | succ k ih =>
    rw [Function.iterate_succ_apply']
    exact (sweep_trace_count hb _ i).trans (by omega)

/-- The `while` loop makes a number of sweeps, each of them started with the loop
condition true. -/
theorem while_loop_run (body : Nat → Packet K R X n → Packet K R X n) (bound : Int) :
    ∀ (fuel : Nat) (p : Packet K R X n), ∃ N, while_loop body bound fuel p = (sweep body)^[N] p ∧
      ∀ k < N, ((sweep body)^[k] p).computed_roots < n ∧
        (((sweep body)^[k] p).iterations : Int) < bound := by
  intro fuel
  induction fuel with
  | zero => exact fun p => ⟨0, rfl, fun k hk => absurd hk (Nat.not_lt_zero k)⟩
  | succ fuel ih =>
    intro p
    rw [while_loop]
    split
    · rename_i hc
      obtain ⟨N, hN, hk⟩ := ih (sweep body p)
      refine ⟨N + 1, by rw [hN, Function.iterate_succ_apply], fun k hkN => ?_⟩
      cases k with
      | zero => exact hc
      | succ k =>
        rw [Function.iterate_succ_apply]
        exact hk k (Nat.lt_of_succ_lt_succ hkN)
    · exact ⟨0, rfl, fun k hk => absurd hk (Nat.not_lt_zero k)⟩

/-- With enough rounds unfolded the `while` loop is left because its condition fails. -/
theorem while_loop_exit {newton : mps_status K R X n → Nat → mps_status K R X n × K}
    {ev_newton ev_aberth : Nat → Call} {body : Nat → Packet K R X n → Packet K R X n}
    (hb : BodySpec newton ev_newton ev_aberth body) (bound : Int) :
    ∀ (fuel : Nat) (p : Packet K R X n), (bound - p.iterations).toNat ≤ fuel →
      ¬ ((while_loop body bound fuel p).computed_roots < n ∧
        ((while_loop body bound fuel p).iterations : Int) < bound) := by
  intro fuel
  induction fuel with
  | zero =>
    intro p hp
    rw [while_loop]
    rintro ⟨_, h⟩
    omega
  | succ fuel ih =>
    intro p hp
    rw [while_loop]
    split
    · refine ih (sweep body p) ?_
      rw [sweep_iterations hb]
      push_cast
      omega
    · assumption

/-- Unfolding more rounds than the bound leaves does not change the result. -/
theorem while_loop_fuel_stable {newton : mps_status K R X n → Nat → mps_status K R X n × K}
    {ev_newton ev_aberth : Nat → Call} {body : Nat → Packet K R X n → Packet K R X n}
    (hb : BodySpec newton ev_newton ev_aberth body) (bound : Int) :
    ∀ (fuel : Nat) (p : Packet K R X n), (bound - p.iterations).toNat ≤ fuel →
      while_loop body bound (fuel + 1) p = while_loop body bound fuel p := by
  intro fuel
  induction fuel with
  | zero =>
    intro p hp
    rw [while_loop, while_loop]
    split
    · rename_i hc
      omega
    · rfl
  | succ fuel ih =>
    intro p hp
    have h1 : while_loop body bound (fuel + 1 + 1) p =
        if p.computed_roots < n ∧ (p.iterations : Int) < bound then
          while_loop body bound (fuel + 1) (sweep body p) else p := rfl
    have h2 : while_loop body bound (fuel + 1) p =
        if p.computed_roots < n ∧ (p.iterations : Int) < bound then
          while_loop body bound fuel (sweep body p) else p := rfl
    rw [h1, h2]
    split
    · refine ih (sweep body p) ?_
      rw [sweep_iterations hb]
      push_cast
      omega
    · rfl

/-- The run of a packet started with `iterations = 0`. -/
theorem packet_run {newton : mps_status K R X n → Nat → mps_status K R X n × K}
    {ev_newton ev_aberth : Nat → Call} {body : Nat → Packet K R X n → Packet K R X n}
    (hb : BodySpec newton ev_newton ev_aberth body) (bound : Int) (hbound : 0 ≤ bound)
    (fuel : Nat) (hfuel : bound.toNat ≤ fuel) (p : Packet K R X n) (hp : p.iterations = 0) :
    is_run body p (while_loop body bound fuel p) ∧
    ((while_loop body bound fuel p).iterations : Int) ≤ bound ∧
    ¬ ((while_loop body bound fuel p).computed_roots < n ∧
      ((while_loop body bound fuel p).iterations : Int) < bound) ∧
    ∀ i, (List.count (ev_newton i) (while_loop body bound fuel p).s.trace : Int) ≤
      List.count (ev_newton i) p.s.trace + bound := by
  obtain ⟨N, hN, hk⟩ := while_loop_run body bound fuel p
  have hit : (while_loop body bound fuel p).iterations = N := by
    rw [hN, iterate_sweep_iterations hb, hp, Nat.zero_add]
  have hle : (N : Int) ≤ bound := by
    cases N with
    | zero => exact hbound
    | succ N =>
      have := (hk N (Nat.lt_succ_self N)).2
      rw [iterate_sweep_iterations hb, hp, Nat.zero_add] at this
      push_cast
      omega
  refine ⟨⟨?_, ?_⟩, ?_, ?_, ?_⟩
  · rw [hit]
    exact hN
  · rw [hit]
    exact fun k hkN => (hk k hkN).1
  · rw [hit]
    exact hle
  · refine while_loop_exit hb bound fuel p ?_
    rw [hp]
    simpa using hfuel
  · intro i
    have := iterate_sweep_trace_count hb p i N
    rw [← hN] at this
    have h2 : (List.count (ev_newton i) (while_loop body bound fuel p).s.trace : Int) ≤
        (List.count (ev_newton i) p.s.trace + N : Nat) := by exact_mod_cast this
    push_cast at h2
    omega

end PacketRuns

section PacketLength

variable {K R X : Type} [Field K] [LinearOrderedField R] {n : Nat}

/-- C10: for `maxit ≥ 1`, a packet of `mps_secular_ga_fiterate` or
`mps_secular_ga_diterate` consists of at most `maxit - 1` sweeps over the roots and a
packet of `mps_secular_ga_miterate` of at most `maxit` sweeps; every sweep is started
with `computed_roots < n`, the loop is left because its condition fails, and the Newton
evaluator of each root is called at most `maxit - 1` (float, DPE) or `maxit` (MP) times. -/
theorem packet_length (c : Collaborators K R X n) (s : mps_status K R X n) (maxit : Int)
    (hmaxit : 1 ≤ maxit) :
    (is_run (fiterate_body c) { s := again_reset s, computed_roots := 0, iterations := 0 }
        (fiterate_packet c s maxit) ∧
      ((fiterate_packet c s maxit).iterations : Int) ≤ maxit - 1 ∧
      ¬ ((fiterate_packet c s maxit).computed_roots < n ∧
        ((fiterate_packet c s maxit).iterations : Int) < maxit - 1) ∧
      ∀ i, (List.count (Call.fnewton i) (fiterate_packet c s maxit).s.trace : Int) ≤
        List.count (Call.fnewton i) s.trace + (maxit - 1)) ∧
    (is_run (diterate_body c) { s := again_reset s, computed_roots := 0, iterations := 0 }
        (diterate_packet c s maxit) ∧
      ((diterate_packet c s maxit).iterations : Int) ≤ maxit - 1 ∧
      ¬ ((diterate_packet c s maxit).computed_roots < n ∧
        ((diterate_packet c s maxit).iterations : Int) < maxit - 1) ∧
      ∀ i, (List.count (Call.dnewton i) (diterate_packet c s maxit).s.trace : Int) ≤
        List.count (Call.dnewton i) s.trace + (maxit - 1)) ∧
    (is_run (miterate_body c)
        (for_loop (miterate_reset_body (rdpe_set_2dl 1 (-s.prec_out))) n
          { s := s, computed_roots := 0, iterations := 0 })
        (miterate_packet c s maxit) ∧
      ((miterate_packet c s maxit).iterations : Int) ≤ maxit ∧
      ¬ ((miterate_packet c s maxit).computed_roots < n ∧
        ((miterate_packet c s maxit).iterations : Int) < maxit) ∧
      ∀ i, (List.count (Call.mnewton i) (miterate_packet c s maxit).s.trace : Int) ≤
        List.count (Call.mnewton i) s.trace + maxit) := by
  have hfuel : (maxit - 1).toNat ≤ maxit.toNat := by omega
  have hf := packet_run (fiterate_body_spec c) (maxit - 1) (by omega) maxit.toNat hfuel
    { s := again_reset s, computed_roots := 0, iterations := 0 } rfl
  have hd := packet_run (diterate_body_spec c) (maxit - 1) (by omega) maxit.toNat hfuel
    { s := again_reset s, computed_roots := 0, iterations := 0 } rfl
  have hr := miterate_reset_spec (K := K) (rdpe_set_2dl 1 (-s.prec_out)) s
  have hm := packet_run (miterate_body_spec c) maxit (by omega) maxit.toNat (Nat.le_refl _)
    (for_loop (miterate_reset_body (rdpe_set_2dl 1 (-s.prec_out))) n
      { s := s, computed_roots := 0, iterations := 0 }) hr.2.1
  rw [hr.2.2] at hm
  have ht : ({ s := again_reset s, computed_roots := 0, iterations := 0 } :
      Packet K R X n).s.trace = s.trace := again_reset_trace s
  rw [ht] at hf hd
  exact ⟨hf, hd, hm⟩

/-- Witness of C10 on `three_roots_state` with the packet size 10 of the driver: at most
9 sweeps in the float phase and at most 10 in the MP phase. -/
theorem packet_length_witness :
    (1 : Int) ≤ 10 ∧
    ((fiterate_packet (idle 3) three_roots_state 10).iterations : Int) ≤ 10 - 1 ∧
    ((miterate_packet (idle 3) three_roots_state 10).iterations : Int) ≤ 10 :=
  ⟨by decide, (packet_length (idle 3) three_roots_state 10 (by decide)).1.2.1,
    (packet_length (idle 3) three_roots_state 10 (by decide)).2.2.2.1⟩

end PacketLength

/-! ## Packets: the single-root step -/

section Step

variable {K R X : Type} [Field K] [LinearOrderedField R] {n : Nat}

theorem aberth_step_inactive (c : Collaborators K R X n) (ph : mps_phase) (i : Nat)
    (t : mps_status K R X n) (h : t.again i = false) : aberth_step c ph i t = t := by
  simp [aberth_step, h]

theorem aberth_step_again (c : Collaborators K R X n) (ph : mps_phase) (i : Nat)
    (t : mps_status K R X n) (h : t.again i = true) :
    (aberth_step c ph i t).again = (c.newton ph t i).1.again := by
  cases ph <;> simp [aberth_step, h, newton_state, mps_status.set_root, mps_status.set_rad]

theorem aberth_step_root (c : Collaborators K R X n) (ph : mps_phase) (i : Nat)
    (t : mps_status K R X n) (h : t.again i = true) :
    (aberth_step c ph i t).root ph =
      Function.update ((c.newton ph t i).1.root ph) i
        ((c.newton ph t i).1.root ph i - abcorr c ph i t) := by
  cases ph <;>
    simp [aberth_step, h, newton_state, mps_status.set_root, mps_status.set_rad,
      mps_status.root]

theorem aberth_step_rad (c : Collaborators K R X n) (ph : mps_phase) (i : Nat)
    (t : mps_status K R X n) (h : t.again i = true) :
    (aberth_step c ph i t).rad ph =
      Function.update ((c.newton ph t i).1.rad ph) i
        ((c.newton ph t i).1.rad ph i + c.cplx_mod (abcorr c ph i t)) := by
  cases ph <;>
    simp [aberth_step, h, newton_state, mps_status.set_root, mps_status.set_rad,
      mps_status.rad]

theorem aberth_step_trace (c : Collaborators K R X n) (ph : mps_phase) (i : Nat)
    (t : mps_status K R X n) (h : t.again i = true) :
    (aberth_step c ph i t).trace = t.trace ++ [Call.newton ph i, Call.aberth ph i] := by
  cases ph <;> simp [aberth_step, h, newton_state, mps_status.set_root, mps_status.set_rad]

theorem aberth_step_lastphase (c : Collaborators K R X n) (ph : mps_phase) (i : Nat)
    (t : mps_status K R X n) (h : t.again i = true) :
    (aberth_step c ph i t).lastphase = (c.newton ph t i).1.lastphase := by
  cases ph <;> simp [aberth_step, h, newton_state, mps_status.set_root, mps_status.set_rad]

/-- The state part of the body of a sweep is the single-root step. -/
theorem iterate_body_state (c : Collaborators K R X n) (ph : mps_phase) (i : Nat)
    (p : Packet K R X n) : (iterate_body c ph i p).s = aberth_step c ph i p.s := by
  cases h : p.s.again i <;> cases ph <;>
    simp [iterate_body, fiterate_body, diterate_body, miterate_body, aberth_step, h,
      newton_state, abcorr, call_newton, mps_status.set_root, mps_status.set_rad,
      mps_status.root, mps_status.rad, Collaborators.newton, Collaborators.aberth,
      Call.newton, Call.aberth]

theorem for_loop_eq_foldl {σ : Type} (body : Nat → σ → σ) (k : Nat) (st : σ) :
    for_loop body k st = (List.range k).foldl (fun t i => body i t) st := by
  induction k with
  | zero => rfl
  | succ k ih => rw [for_loop, ih, List.range_succ, List.foldl_append]; rfl

theorem for_loop_iterate_body_state (c : Collaborators K R X n) (ph : mps_phase) (k : Nat)
    (p : Packet K R X n) :
    (for_loop (iterate_body c ph) k p).s = for_loop (aberth_step c ph) k p.s := by
  induction k with
  | zero => rfl
  | succ k ih => rw [for_loop, for_loop, iterate_body_state, ih]

theorem iterate_body_spec (c : Collaborators K R X n) (ph : mps_phase) :
    BodySpec (c.newton ph) (Call.newton ph) (Call.aberth ph) (iterate_body c ph) := by
  cases ph
  · exact fiterate_body_spec c
  · exact diterate_body_spec c
  · exact miterate_body_spec c

end Step

section PacketStart

variable {K R X : Type} [LinearOrderedField R] {n : Nat}

/-- The first loop of a packet writes the flags only. -/
theorem iterate_start_frame (ph : mps_phase) (s : mps_status K R X n) :
    (iterate_start ph s).s.rad ph = s.rad ph ∧ (iterate_start ph s).s.root ph = s.root ph ∧
    (iterate_start ph s).s.trace = s.trace ∧
    (iterate_start ph s).s.lastphase = s.lastphase := by
  have hr : ∀ (ph1 : mps_phase), (again_reset s).rad ph1 = s.rad ph1 ∧
      (again_reset s).root ph1 = s.root ph1 ∧ (again_reset s).trace = s.trace ∧
      (again_reset s).lastphase = s.lastphase := by
    intro ph1
    exact for_loop_invariant
      (fun i (t : mps_status K R X n) => { t with again := Function.update t.again i true })
      (fun _ t => t.rad ph1 = s.rad ph1 ∧ t.root ph1 = s.root ph1 ∧ t.trace = s.trace ∧
        t.lastphase = s.lastphase) n s ⟨rfl, rfl, rfl, rfl⟩
      (fun _ _ t ht => by cases ph1 <;> exact ht) n (Nat.le_refl n)
  cases ph
  · exact hr _
  · exact hr _
  · refine for_loop_invariant (miterate_reset_body (rdpe_set_2dl 1 (-s.prec_out)))
      (fun _ (q : Packet K R X n) => q.s.rad mps_phase.mp_phase = s.rad mps_phase.mp_phase ∧
        q.s.root mps_phase.mp_phase = s.root mps_phase.mp_phase ∧ q.s.trace = s.trace ∧
        q.s.lastphase = s.lastphase) n _ ⟨rfl, rfl, rfl, rfl⟩ (fun k _ q hq => ?_) n
      (Nat.le_refl n)
    unfold miterate_reset_body
    split <;> exact hq

end PacketStart

/-! ## Packets: sweeps, radii and frozen roots -/

section Sweeps

variable {K R X : Type} [Field K] [LinearOrderedField R] {n : Nat}

theorem sweep_state (c : Collaborators K R X n) (ph : mps_phase) (p : Packet K R X n) :
    (sweep (iterate_body c ph) p).s = for_loop (aberth_step c ph) n p.s :=
  for_loop_iterate_body_state c ph n { p with iterations := p.iterations + 1 }

/-- The packet of a kind is a run of sweeps from the state its first loop leaves. -/
theorem iterate_packet_is_run (c : Collaborators K R X n) (ph : mps_phase)
    (s : mps_status K R X n) (maxit : Int) :
    is_run (iterate_body c ph) (iterate_start ph s) (iterate_packet c ph s maxit) := by
  have key : ∀ (bound : Int) (fuel : Nat) (p : Packet K R X n), p.iterations = 0 →
      is_run (iterate_body c ph) p (while_loop (iterate_body c ph) bound fuel p) := by
    intro bound fuel p hp
    obtain ⟨N, hN, hk⟩ := while_loop_run (iterate_body c ph) bound fuel p
    have hit : (while_loop (iterate_body c ph) bound fuel p).iterations = N := by
      rw [hN, iterate_sweep_iterations (iterate_body_spec c ph), hp, Nat.zero_add]
    refine ⟨?_, ?_⟩
    · rw [hit]; exact hN
    · rw [hit]; exact fun k hkN => (hk k hkN).1
  cases ph
  · exact key _ _ _ rfl
  · exact key _ _ _ rfl
  · exact key _ _ _ (miterate_reset_spec (K := K) (rdpe_set_2dl 1 (-s.prec_out)) s).2.1

/-- C11: in each kind, the state after one sweep is the left-to-right composition over
`i = 0, …, n-1` of the single-root step `aberth_step` (so that the step of root `i` works
on the state in which the roots of smaller index already hold the values updated in this
sweep). The step does nothing when `again[i]` is false; otherwise, with `corr` the
Newton correction and `sum` the Aberth sum, it sets `z_i := z_i - corr / (1 - sum * corr)`
and `r_i := r_i + |corr / (1 - sum * corr)|`, leaves the other approximations and radii
alone and takes the flags as the evaluator left them: the update is applied also when
the evaluator has cleared `again[i]`. -/
theorem sweep_gauss_seidel (c : Collaborators K R X n) (ph : mps_phase)
    (p : Packet K R X n) :
    (sweep (iterate_body c ph) p).s =
      (List.range n).foldl (fun t i => aberth_step c ph i t) p.s ∧
    (∀ (t : mps_status K R X n) i, t.again i = false → aberth_step c ph i t = t) ∧
    (∀ (t : mps_status K R X n) i, t.again i = true →
      (aberth_step c ph i t).root ph i =
        (newton_state c ph i t).root ph i - abcorr c ph i t ∧
      (aberth_step c ph i t).rad ph i =
        (newton_state c ph i t).rad ph i + c.cplx_mod (abcorr c ph i t) ∧
      (∀ j, j ≠ i →
        (aberth_step c ph i t).root ph j = (newton_state c ph i t).root ph j ∧
        (aberth_step c ph i t).rad ph j = (newton_state c ph i t).rad ph j) ∧
      (aberth_step c ph i t).again = (newton_state c ph i t).again) ∧
    (writes_flag_only (c.newton ph) →
      ∀ (t : mps_status K R X n) i, t.again i = true →
        (aberth_step c ph i t).root ph i = t.root ph i - abcorr c ph i t ∧
        (aberth_step c ph i t).rad ph i = t.rad ph i + c.cplx_mod (abcorr c ph i t)) := by
  have hroot : ∀ (t : mps_status K R X n) i,
      (newton_state c ph i t).root ph = (c.newton ph t i).1.root ph := by
    intro t i; cases ph <;> rfl
  have hrad : ∀ (t : mps_status K R X n) i,
      (newton_state c ph i t).rad ph = (c.newton ph t i).1.rad ph := by
    intro t i; cases ph <;> rfl
  refine ⟨?_, fun t i h => aberth_step_inactive c ph i t h, fun t i h => ⟨?_, ?_, ?_, ?_⟩,
    fun hw t i h => ⟨?_, ?_⟩⟩
  · rw [sweep_state, for_loop_eq_foldl]
  · rw [aberth_step_root c ph i t h, Function.update_same, hroot]
  · rw [aberth_step_rad c ph i t h, Function.update_same, hrad]
  · intro j hj
    rw [aberth_step_root c ph i t h, aberth_step_rad c ph i t h,
      Function.update_noteq hj, Function.update_noteq hj, hroot, hrad]
    exact ⟨rfl, rfl⟩
  · rw [aberth_step_again c ph i t h]
    rfl
  · obtain ⟨_, h1, h2, h3, _, _⟩ := hw t i
    rw [aberth_step_root c ph i t h, Function.update_same]
    cases ph
    · exact congrArg (fun z => z i - abcorr c mps_phase.float_phase i t) h1
    · exact congrArg (fun z => z i - abcorr c mps_phase.dpe_phase i t) h2
    · exact congrArg (fun z => z i - abcorr c mps_phase.mp_phase i t) h3
  · obtain ⟨_, _, _, _, h4, h5⟩ := hw t i
    rw [aberth_step_rad c ph i t h, Function.update_same]
    cases ph
    · exact congrArg
        (fun r => r i + c.cplx_mod (abcorr c mps_phase.float_phase i t)) h4
    · exact congrArg
        (fun r => r i + c.cplx_mod (abcorr c mps_phase.dpe_phase i t)) h5
    · exact congrArg
        (fun r => r i + c.cplx_mod (abcorr c mps_phase.mp_phase i t)) h5

end Sweeps

theorem writes_flag_only_root {K R X : Type} {n : Nat} {ph : mps_phase}
    {c : Collaborators K R X n}
    (hw : writes_flag_only (c.newton ph)) (t : mps_status K R X n) (k : Nat) :
    (c.newton ph t k).1.root ph = t.root ph ∧ (c.newton ph t k).1.rad ph = t.rad ph := by
  obtain ⟨_, h1, h2, h3, h4, h5⟩ := hw t k
  cases ph
  · exact ⟨h1, h4⟩
  · exact ⟨h2, h5⟩
  · exact ⟨h3, h5⟩

section Frozen

variable {K R X : Type} [Field K] [LinearOrderedField R] {n : Nat}

/-- A single-root step leaves an inactive root as it is and does not call its Newton
evaluator. -/
theorem aberth_step_frozen (c : Collaborators K R X n) (ph : mps_phase)
    (hw : writes_flag_only (c.newton ph)) (i k : Nat) (t : mps_status K R X n)
    (h : t.again i = false) :
    (aberth_step c ph k t).again i = false ∧
    (aberth_step c ph k t).root ph i = t.root ph i ∧
    (aberth_step c ph k t).rad ph i = t.rad ph i ∧
    List.count (Call.newton ph i) (aberth_step c ph k t).trace =
      List.count (Call.newton ph i) t.trace := by
  cases hk : t.again k with
  | false =>
    rw [aberth_step_inactive c ph k t hk]
    exact ⟨h, rfl, rfl, rfl⟩
  | true =>
    have hik : i ≠ k := fun e => by rw [e, hk] at h; exact Bool.noConfusion h
    have hki : ¬ k = i := fun e => hik e.symm
    obtain ⟨hz, hr⟩ := writes_flag_only_root hw t k
    refine ⟨?_, ?_, ?_, ?_⟩
    · rw [aberth_step_again c ph k t hk, (hw t k).1 i hik]
      exact h
    · rw [aberth_step_root c ph k t hk, Function.update_noteq hik, hz]
    · rw [aberth_step_rad c ph k t hk, Function.update_noteq hik, hr]
    · rw [aberth_step_trace c ph k t hk, List.count_append,
        (iterate_body_spec c ph).events i k]
      simp [hki]

/-- Sweeps leave an inactive root as it is and do not call its Newton evaluator. -/
theorem iterate_sweep_frozen (c : Collaborators K R X n) (ph : mps_phase)
    (hw : writes_flag_only (c.newton ph)) (i : Nat) (m : Nat) (p : Packet K R X n)
    (h : p.s.again i = false) :
    ((sweep (iterate_body c ph))^[m] p).s.again i = false ∧
    ((sweep (iterate_body c ph))^[m] p).s.root ph i = p.s.root ph i ∧
    ((sweep (iterate_body c ph))^[m] p).s.rad ph i = p.s.rad ph i ∧
    List.count (Call.newton ph i) ((sweep (iterate_body c ph))^[m] p).s.trace =
      List.count (Call.newton ph i) p.s.trace := by
  have hsweep : ∀ (q : Packet K R X n), q.s.again i = false →
      (sweep (iterate_body c ph) q).s.again i = false ∧
      (sweep (iterate_body c ph) q).s.root ph i = q.s.root ph i ∧
      (sweep (iterate_body c ph) q).s.rad ph i = q.s.rad ph i ∧
      List.count (Call.newton ph i) (sweep (iterate_body c ph) q).s.trace =
        List.count (Call.newton ph i) q.s.trace := by
    intro q hq
    rw [sweep_state]
    exact for_loop_invariant (aberth_step c ph)
      (fun _ t => t.again i = false ∧ t.root ph i = q.s.root ph i ∧
        t.rad ph i = q.s.rad ph i ∧
        List.count (Call.newton ph i) t.trace = List.count (Call.newton ph i) q.s.trace)
      n q.s ⟨hq, rfl, rfl, rfl⟩
      (fun k _ t ht => by
        obtain ⟨h1, h2, h3, h4⟩ := aberth_step_frozen c ph hw i k t ht.1
        exact ⟨h1, h2.trans ht.2.1, h3.trans ht.2.2.1, h4.trans ht.2.2.2⟩)
      n (Nat.le_refl n)
  induction m with
  | zero => exact ⟨h, rfl, rfl, rfl⟩
  | succ m ih =>
    rw [Function.iterate_succ_apply']
    obtain ⟨h1, h2, h3, h4⟩ := hsweep _ ih.1
    exact ⟨h1, h2.trans ih.2.1, h3.trans ih.2.2.1, h4.trans ih.2.2.2⟩

end Frozen

section MpReset

variable {K R X : Type} [LinearOrderedField R] {n : Nat}

/-- The first loop of `mps_secular_ga_miterate` writes the flags only, and clears
exactly those of the roots whose radius does not exceed `drad`. -/
theorem miterate_reset_state (drad : R) (s : mps_status K R X n) :
    (for_loop (miterate_reset_body drad) n
        ({ s := s, computed_roots := 0, iterations := 0 } : Packet K R X n)).s =
      { s with again := (for_loop (miterate_reset_body drad) n
        ({ s := s, computed_roots := 0, iterations := 0 } : Packet K R X n)).s.again } ∧
    ∀ i < n, ((for_loop (miterate_reset_body drad) n
        ({ s := s, computed_roots := 0, iterations := 0 } : Packet K R X n)).s.again i = false ↔
      s.drad i ≤ drad) := by
  refine for_loop_invariant (miterate_reset_body drad)
    (fun k (q : Packet K R X n) => q.s = { s with again := q.s.again } ∧
      ∀ i < k, (q.s.again i = false ↔ s.drad i ≤ drad)) n _
    ⟨rfl, fun i hi => absurd hi (Nat.not_lt_zero i)⟩ (fun k _ q hq => ?_) n (Nat.le_refl n)
  obtain ⟨h1, h2⟩ := hq
  have hd : q.s.drad = s.drad := by rw [h1]
  unfold miterate_reset_body
  split
  · rename_i hgt
    refine ⟨by simp only; rw [h1], fun i hi => ?_⟩
    show Function.update q.s.again k true i = false ↔ s.drad i ≤ drad
    rcases Nat.lt_succ_iff_lt_or_eq.mp hi with hlt | heq
    · rw [Function.update_noteq (by omega)]
      exact h2 i hlt
    · subst heq
      rw [Function.update_same, ← hd]
      simp [not_le.mpr hgt]
  · rename_i hle
    refine ⟨by simp only; rw [h1], fun i hi => ?_⟩
    show Function.update q.s.again k false i = false ↔ s.drad i ≤ drad
    rcases Nat.lt_succ_iff_lt_or_eq.mp hi with hlt | heq
    · rw [Function.update_noteq (by omega)]
      exact h2 i hlt
    · subst heq
      rw [Function.update_same, ← hd]
      simp [not_lt.mp hle]

end MpReset

/-! ## Packets: frozen roots and converged input -/

section FrozenPacket

variable {K R X : Type} [Field K] [LinearOrderedField R] {n : Nat}

/-- C13: in each kind, when the Newton evaluator writes nothing but the flag of the root
it is called for, a root whose flag `again[i]` is false after `k` sweeps of a packet
(`k = 0`: after the first loop of the packet) has at the return of the packet its flag
still false, its approximation and its radius as they were after these `k` sweeps, and
its Newton evaluator has not been called since. In the MP packet this holds in
particular for the roots the first loop marks inactive, those with
`drad[i] ≤ 2^(-prec_out)`. -/
theorem inactive_root_frozen (c : Collaborators K R X n) (ph : mps_phase)
    (hw : writes_flag_only (c.newton ph)) (s : mps_status K R X n) (maxit : Int) (i : Nat) :
    is_run (iterate_body c ph) (iterate_start ph s) (iterate_packet c ph s maxit) ∧
    (∀ k ≤ (iterate_packet c ph s maxit).iterations,
      ((sweep (iterate_body c ph))^[k] (iterate_start ph s)).s.again i = false →
        (iterate_packet c ph s maxit).s.again i = false ∧
        (iterate_packet c ph s maxit).s.root ph i =
          ((sweep (iterate_body c ph))^[k] (iterate_start ph s)).s.root ph i ∧
        (iterate_packet c ph s maxit).s.rad ph i =
          ((sweep (iterate_body c ph))^[k] (iterate_start ph s)).s.rad ph i ∧
        List.count (Call.newton ph i) (iterate_packet c ph s maxit).s.trace =
          List.count (Call.newton ph i)
            ((sweep (iterate_body c ph))^[k] (iterate_start ph s)).s.trace) ∧
    (ph = mps_phase.mp_phase → i < n → s.drad i ≤ (2 : R) ^ (-s.prec_out) →
      (iterate_packet c ph s maxit).s.again i = false ∧
      (iterate_packet c ph s maxit).s.mroot i = s.mroot i ∧
      (iterate_packet c ph s maxit).s.drad i = s.drad i ∧
      List.count (Call.mnewton i) (iterate_packet c ph s maxit).s.trace =
        List.count (Call.mnewton i) s.trace) := by
  have hrun := iterate_packet_is_run c ph s maxit
  have hk : ∀ k ≤ (iterate_packet c ph s maxit).iterations,
      ((sweep (iterate_body c ph))^[k] (iterate_start ph s)).s.again i = false →
        (iterate_packet c ph s maxit).s.again i = false ∧
        (iterate_packet c ph s maxit).s.root ph i =
          ((sweep (iterate_body c ph))^[k] (iterate_start ph s)).s.root ph i ∧
        (iterate_packet c ph s maxit).s.rad ph i =
          ((sweep (iterate_body c ph))^[k] (iterate_start ph s)).s.rad ph i ∧
        List.count (Call.newton ph i) (iterate_packet c ph s maxit).s.trace =
          List.count (Call.newton ph i)
            ((sweep (iterate_body c ph))^[k] (iterate_start ph s)).s.trace := by
    intro k hkN hfalse
    have hsplit : iterate_packet c ph s maxit =
        (sweep (iterate_body c ph))^[(iterate_packet c ph s maxit).iterations - k]
          ((sweep (iterate_body c ph))^[k] (iterate_start ph s)) := by
      rw [← Function.iterate_add_apply, Nat.sub_add_cancel hkN]
      exact hrun.1
    have hf := iterate_sweep_frozen c ph hw i
      ((iterate_packet c ph s maxit).iterations - k) _ hfalse
    rw [← hsplit] at hf
    exact hf
  refine ⟨hrun, hk, ?_⟩
  intro hph hi hconv
  subst hph
  obtain ⟨hstate, hflags⟩ :=
    miterate_reset_state (K := K) (X := X) (rdpe_set_2dl 1 (-s.prec_out)) s
  have h0 : (iterate_start mps_phase.mp_phase s).s.again i = false :=
    (hflags i hi).mpr (by rw [rdpe_set_2dl, one_mul]; exact hconv)
  obtain ⟨h1, h2, h3, h4⟩ := hk 0 (Nat.zero_le _) h0
  obtain ⟨f1, f2, f3, _⟩ := iterate_start_frame (K := K) mps_phase.mp_phase s
  refine ⟨h1, ?_, ?_, ?_⟩
  · exact h2.trans (congrFun f2 i)
  · exact h3.trans (congrFun f1 i)
  · exact h4.trans (congrArg _ f3)

end FrozenPacket

theorem settling_writes_flag_only (n : Nat) (ph : mps_phase) :
    writes_flag_only ((settling n).newton ph) := by
  intro s i
  cases ph <;>
    exact ⟨fun j hj => Function.update_noteq hj _ _, rfl, rfl, rfl, rfl, rfl⟩

/-- The first loop of the MP packet on `mp_mixed_state` marks root 0 inactive and leaves
roots 1 and 2 active. -/
theorem mp_mixed_state_start :
    iterate_start (K := ℚ) mps_phase.mp_phase mp_mixed_state =
      { s := { mp_mixed_state with
               again := Function.update (Function.update
                 (Function.update mp_mixed_state.again 0 false) 1 true) 2 true },
        computed_roots := 1, iterations := 0 } := by
  have h0 : ¬ (mp_mixed_state.drad 0 > rdpe_set_2dl 1 (-mp_mixed_state.prec_out)) := by
    norm_num [mp_mixed_state, state, arr, rdpe_set_2dl]
  have h1 : mp_mixed_state.drad 1 > rdpe_set_2dl 1 (-mp_mixed_state.prec_out) := by
    norm_num [mp_mixed_state, state, arr, rdpe_set_2dl]
  have h2 : mp_mixed_state.drad 2 > rdpe_set_2dl 1 (-mp_mixed_state.prec_out) := by
    norm_num [mp_mixed_state, state, arr, rdpe_set_2dl]
  simp only [iterate_start, for_loop, miterate_reset_body, h0, h1, h2, if_true, if_false]

theorem mp_mixed_state_packet :
    miterate_packet (settling 3) mp_mixed_state 3 =
      while_loop (miterate_body (settling 3)) 3 3
        { s := { mp_mixed_state with
                 again := Function.update (Function.update
                   (Function.update mp_mixed_state.again 0 false) 1 true) 2 true },
          computed_roots := 1, iterations := 0 } := by
  rw [← mp_mixed_state_start]
  rfl

/-- Witness of C13 with the collaborators `settling` on `mp_mixed_state` (approximations
`[1, 3, 5]`, radii `[1/4, 9, 9]`, `prec_out = 1`) and `maxit = 3`: the packet makes three
sweeps. Root 0 is marked inactive by the first loop and is never touched. Root 1 is
updated in the first sweep (to 2, with radius 10), in which the evaluator clears its
flag, and is as the first sweep left it at the return, its evaluator called once. Root 2
stays active and is updated in all three sweeps (to 2, with radius 12). -/
theorem inactive_root_frozen_witness :
    writes_flag_only ((settling 3).newton mps_phase.mp_phase) ∧
    (miterate_packet (settling 3) mp_mixed_state 3).iterations = 3 ∧
    ((miterate_packet (settling 3) mp_mixed_state 3).s.again 0 = false ∧
      (miterate_packet (settling 3) mp_mixed_state 3).s.mroot 0 = 1 ∧
      (miterate_packet (settling 3) mp_mixed_state 3).s.drad 0 = 1 / 4 ∧
      List.count (Call.mnewton 0)
        (miterate_packet (settling 3) mp_mixed_state 3).s.trace = 0) ∧
    (((sweep (miterate_body (settling 3)))^[1]
        (iterate_start mps_phase.mp_phase mp_mixed_state)).s.again 1 = false ∧
      (miterate_packet (settling 3) mp_mixed_state 3).s.again 1 = false ∧
      (miterate_packet (settling 3) mp_mixed_state 3).s.mroot 1 = 2 ∧
      (miterate_packet (settling 3) mp_mixed_state 3).s.drad 1 = 10 ∧
      List.count (Call.mnewton 1)
        (miterate_packet (settling 3) mp_mixed_state 3).s.trace = 1) ∧
    ((miterate_packet (settling 3) mp_mixed_state 3).s.again 2 = true ∧
      (miterate_packet (settling 3) mp_mixed_state 3).s.mroot 2 = 2 ∧
      (miterate_packet (settling 3) mp_mixed_state 3).s.drad 2 = 12 ∧
      List.count (Call.mnewton 2)
        (miterate_packet (settling 3) mp_mixed_state 3).s.trace = 3) := by
  have hw := settling_writes_flag_only 3 mps_phase.mp_phase
  have hit : (miterate_packet (settling 3) mp_mixed_state 3).iterations = 3 := by
    rw [mp_mixed_state_packet]; rfl
  have hfalse : ((sweep (iterate_body (settling 3) mps_phase.mp_phase))^[1]
      (iterate_start mps_phase.mp_phase mp_mixed_state)).s.again 1 = false := by
    rw [mp_mixed_state_start]; rfl
  have h0 := (inactive_root_frozen (settling 3) mps_phase.mp_phase hw mp_mixed_state 3 0).2.2
    rfl (by decide) (by norm_num [mp_mixed_state, state, arr])
  have h1 := (inactive_root_frozen (settling 3) mps_phase.mp_phase hw mp_mixed_state 3 1).2.1
    1 (by rw [show (iterate_packet (settling 3) mps_phase.mp_phase mp_mixed_state 3).iterations
        = 3 from hit]; decide) hfalse
  refine ⟨hw, hit, ⟨h0.1, h0.2.1.trans ?_, h0.2.2.1.trans ?_, h0.2.2.2.trans ?_⟩,
    ⟨hfalse, h1.1, h1.2.1.trans ?_, h1.2.2.1.trans ?_, h1.2.2.2.trans ?_⟩, ?_, ?_, ?_, ?_⟩
  · norm_num [mp_mixed_state, state, arr]
  · norm_num [mp_mixed_state, state, arr]
  · rfl
  · rw [mp_mixed_state_start]
    norm_num [iterate_body, sweep, for_loop, miterate_body, call_newton, settling, idle,
      mp_mixed_state, state, arr, Function.update, mps_status.root]
  · rw [mp_mixed_state_start]
    norm_num [iterate_body, sweep, for_loop, miterate_body, call_newton, settling, idle,
      mp_mixed_state, state, arr, Function.update, mps_status.rad]
  · rw [mp_mixed_state_start]; rfl
  · rw [mp_mixed_state_packet]; rfl
  · rw [mp_mixed_state_packet]
    norm_num [while_loop, sweep, for_loop, miterate_body, call_newton, settling, idle,
      mp_mixed_state, state, arr, Function.update]
  · rw [mp_mixed_state_packet]
    norm_num [while_loop, sweep, for_loop, miterate_body, call_newton, settling, idle,
      mp_mixed_state, state, arr, Function.update]
  · rw [mp_mixed_state_packet]; rfl

/-! ## Converged MP input -/

section Converged

variable {K R X : Type} [LinearOrderedField R] {n : Nat}

/-- In the DPE and MP phases the stop check tests the DPE radii only. -/
theorem check_stop_iff_drad (c : Collaborators K R X n) (s : mps_status K R X n)
    (hphase : s.lastphase = mps_phase.dpe_phase ∨ s.lastphase = mps_phase.mp_phase) :
    mps_secular_ga_check_stop c s = true ↔ ∀ i < n, s.drad i ≤ (2 : R) ^ (-s.prec_out) := by
  have hnf : s.lastphase ≠ mps_phase.float_phase := by
    rcases hphase with h | h <;> rw [h] <;> decide
  simp only [mps_secular_ga_check_stop, hnf, and_false, if_false, List.all_eq_true,
    List.mem_range, rdpe_set_2dl, one_mul]
  refine forall_congr' (fun i => forall_congr' (fun _ => ?_))
  rcases hphase with h | h <;> simp [check_stop_body, h, not_lt]

end Converged

theorem while_loop_done {K R X : Type} {n : Nat}
    (body : Nat → Packet K R X n → Packet K R X n) (bound : Int)
    (fuel : Nat) (p : Packet K R X n) (h : ¬ p.computed_roots < n) :
    while_loop body bound fuel p = p := by
  cases fuel with
  | zero => rfl
  | succ fuel =>
    rw [while_loop]
    simp [h]

theorem inactive_all (k : Nat) (f : Nat → Bool) (h : ∀ i < k, f i = false) :
    inactive k f = k := by
  induction k with
  | zero => rfl
  | succ k ih =>
    rw [inactive_succ, ih (fun i hi => h i (Nat.lt_succ_of_lt hi)), h k (Nat.lt_succ_self k)]
    rfl

section ConvergedReset

variable {K R X : Type} [Field K] [LinearOrderedField R] {n : Nat}

/-- The MP packet on a state whose radii all meet the target. -/
theorem miterate_converged (c : Collaborators K R X n) (s : mps_status K R X n)
    (maxit : Int) (hconv : ∀ i < n, s.drad i ≤ (2 : R) ^ (-s.prec_out)) :
    (miterate_packet c s maxit).computed_roots = n ∧
    (∀ i < n, (miterate_packet c s maxit).s.again i = false) ∧
    (miterate_packet c s maxit).s = { s with again := (miterate_packet c s maxit).s.again } := by
  obtain ⟨hstate, hflags⟩ :=
    miterate_reset_state (K := K) (X := X) (rdpe_set_2dl 1 (-s.prec_out)) s
  have hfalse : ∀ i < n, (for_loop (miterate_reset_body (rdpe_set_2dl 1 (-s.prec_out))) n
      ({ s := s, computed_roots := 0, iterations := 0 } : Packet K R X n)).s.again i = false :=
    fun i hi => (hflags i hi).mpr (by rw [rdpe_set_2dl, one_mul]; exact hconv i hi)
  have hcomp := (miterate_reset_spec (K := K) (X := X) (rdpe_set_2dl 1 (-s.prec_out)) s).1
  rw [inactive_all n _ hfalse] at hcomp
  have hdone : miterate_packet c s maxit =
      for_loop (miterate_reset_body (rdpe_set_2dl 1 (-s.prec_out))) n
        ({ s := s, computed_roots := 0, iterations := 0 } : Packet K R X n) :=
    while_loop_done _ _ _ _ (by rw [hcomp]; exact Nat.lt_irrefl n)
  rw [hdone]
  exact ⟨hcomp, hfalse, hstate⟩

end ConvergedReset

section ConvergedPacket

variable {K R X : Type} [Field K] [DecidableEq K] [LinearOrderedField R] {n : Nat}

/-- C14: when `drad[i] ≤ 2^(-prec_out)` for every `i < n`, `mps_secular_ga_miterate`
returns `n`, clears every flag `again[i]`, calls neither a Newton nor an Aberth routine
(the trace is as before) and writes nothing but the flags, so that every `mroot[i]` and
`drad[i]` is unchanged; and a round of the loop of `mps_secular_ga_mpsolve` started in
the MP phase on such a state returns at the stop check that follows the packet, with the
state the packet left: no precision raise, no regeneration. -/
theorem converged_mp_input (c : Collaborators K R X n) (s : mps_status K R X n)
    (maxit : Int) (hconv : ∀ i < n, s.drad i ≤ (2 : R) ^ (-s.prec_out)) :
    (mps_secular_ga_miterate c s maxit).2 = n ∧
    (∀ i < n, (mps_secular_ga_miterate c s maxit).1.again i = false) ∧
    (mps_secular_ga_miterate c s maxit).1.trace = s.trace ∧
    (mps_secular_ga_miterate c s maxit).1.mroot = s.mroot ∧
    (mps_secular_ga_miterate c s maxit).1.drad = s.drad ∧
    (mps_secular_ga_miterate c s maxit).1 =
      { s with again := (mps_secular_ga_miterate c s maxit).1.again } ∧
    (s.lastphase = mps_phase.mp_phase →
      mps_secular_ga_check_stop c (mps_secular_ga_miterate c s 10).1 = true ∧
      ∀ rc pk, mpsolve_round c { s := s, roots_computed := rc, packet := pk } =
        Round.returned (mps_secular_ga_miterate c s 10).1) := by
  obtain ⟨h1, h2, h3⟩ := miterate_converged c s maxit hconv
  have h3' : (mps_secular_ga_miterate c s maxit).1 =
      { s with again := (mps_secular_ga_miterate c s maxit).1.again } := h3
  refine ⟨h1, h2, ?_, ?_, ?_, h3', ?_⟩
  · rw [h3']
  · rw [h3']
  · rw [h3']
  · intro hmp
    obtain ⟨_, _, h10⟩ := miterate_converged c s 10 hconv
    have h10' : (mps_secular_ga_miterate c s 10).1 =
        { s with again := (mps_secular_ga_miterate c s 10).1.again } := h10
    have hstop : mps_secular_ga_check_stop c (mps_secular_ga_miterate c s 10).1 = true := by
      rw [check_stop_iff_drad c _ (Or.inr (by rw [h10']; exact hmp)), h10']
      exact hconv
    refine ⟨hstop, fun rc pk => ?_⟩
    simp only [mpsolve_round, mpsolve_packet, hmp, hstop, if_true]

/-- Witness of C14 on `mp_stop_state` (one root, `drad[0] = 1/4 ≤ 2^(-1)`). -/
theorem converged_mp_input_witness :
    mp_stop_state.drad 0 ≤ (2 : ℚ) ^ (-mp_stop_state.prec_out) ∧
    (mps_secular_ga_miterate (idle 1) mp_stop_state 10).2 = 1 ∧
    (mps_secular_ga_miterate (idle 1) mp_stop_state 10).1.trace = mp_stop_state.trace ∧
    mpsolve_round (idle 1) { s := mp_stop_state, roots_computed := 0, packet := 0 } =
      Round.returned (mps_secular_ga_miterate (idle 1) mp_stop_state 10).1 := by
  have hconv : ∀ i < 1, mp_stop_state.drad i ≤ (2 : ℚ) ^ (-mp_stop_state.prec_out) := by
    intro i hi
    obtain rfl : i = 0 := by omega
    norm_num [mp_stop_state, state, arr]
  have h := converged_mp_input (idle 1) mp_stop_state 10 hconv
  exact ⟨hconv 0 Nat.one_pos, h.1, h.2.2.1, (h.2.2.2.2.2.2 rfl).2 0 0⟩

end ConvergedPacket

/-! ## The driver: phase and trace across a packet and a regeneration -/

section DriverFrame

variable {K R X : Type} [Field K] [DecidableEq K] [LinearOrderedField R] {n : Nat}

omit [DecidableEq K] in
/-- A property of the state that every single-root step keeps holds after the packet
when it holds after the first loop of the packet. -/
theorem iterate_packet_invariant (c : Collaborators K R X n) (ph : mps_phase)
    (P : mps_status K R X n → Prop) (hstep : ∀ k t, P t → P (aberth_step c ph k t))
    (s : mps_status K R X n) (maxit : Int) (hstart : P (iterate_start ph s).s) :
    P (iterate_packet c ph s maxit).s := by
  have hsweep : ∀ (q : Packet K R X n), P q.s → P (sweep (iterate_body c ph) q).s := by
    intro q hq
    rw [sweep_state]
    exact for_loop_invariant (aberth_step c ph) (fun _ t => P t) n q.s hq
      (fun k _ t ht => hstep k t ht) n (Nat.le_refl n)
  have hiter : ∀ (m : Nat) (q : Packet K R X n), P q.s →
      P ((sweep (iterate_body c ph))^[m] q).s := by
    intro m
    induction m with
    | zero => exact fun q hq => hq
    | succ m ih =>
      intro q hq
      rw [Function.iterate_succ_apply']
      exact hsweep _ (ih q hq)
  rw [(iterate_packet_is_run c ph s maxit).1]
  exact hiter _ _ hstart

omit [DecidableEq K] in
/-- A packet leaves `lastphase` alone when its Newton evaluator does. -/
theorem iterate_packet_lastphase (c : Collaborators K R X n) (ph : mps_phase)
    (hn : ∀ s i, (c.newton ph s i).1.lastphase = s.lastphase)
    (s : mps_status K R X n) (maxit : Int) :
    (iterate_packet c ph s maxit).s.lastphase = s.lastphase := by
  refine iterate_packet_invariant c ph (fun t => t.lastphase = s.lastphase) (fun k t ht => ?_)
    s maxit (iterate_start_frame (K := K) ph s).2.2.2
  cases h : t.again k with
  | false => rw [aberth_step_inactive c ph k t h]; exact ht
  | true => rw [aberth_step_lastphase c ph k t h, hn]; exact ht

omit [DecidableEq K] in
/-- A packet records no call of `mps_secular_switch_phase`. -/
theorem iterate_packet_switch_count (c : Collaborators K R X n) (ph : mps_phase)
    (s : mps_status K R X n) (maxit : Int) (p : mps_phase) :
    List.count (Call.switch_phase p) (iterate_packet c ph s maxit).s.trace =
      List.count (Call.switch_phase p) s.trace := by
  refine iterate_packet_invariant c ph
    (fun t => List.count (Call.switch_phase p) t.trace =
      List.count (Call.switch_phase p) s.trace) (fun k t ht => ?_) s maxit
    (congrArg _ (iterate_start_frame (K := K) ph s).2.2.1)
  cases h : t.again k with
  | false => rw [aberth_step_inactive c ph k t h]; exact ht
  | true =>
    rw [aberth_step_trace c ph k t h, List.count_append, ht]
    cases ph <;> simp [Call.newton, Call.aberth]

omit [LinearOrderedField R] in
/-- A regeneration leaves `lastphase` alone when the start routines and
`mps_secular_set_radii` do. -/
theorem regenerate_lastphase (c : Collaborators K R X n)
    (hkeep : start_keeps c (fun t => t.lastphase)) (s : mps_status K R X n) :
    (mps_secular_ga_regenerate_coefficients c s).lastphase = s.lastphase := by
  obtain ⟨pf, pd, pm, pr⟩ := hkeep
  have pf1 : ∀ t, (c.mps_secular_fstart t).lastphase = t.lastphase := pf
  have pd1 : ∀ t, (c.mps_secular_dstart t).lastphase = t.lastphase := pd
  have pm1 : ∀ t, (c.mps_secular_mstart t).lastphase = t.lastphase := pm
  have pr1 : ∀ t, (c.mps_secular_set_radii t).lastphase = t.lastphase := pr
  cases hp : s.lastphase with
  | float_phase =>
    simp only [mps_secular_ga_regenerate_coefficients, hp]
    cases regenerate_rows s.sec.afpc s.sec.bfpc (set_b n s.froot s.sec.bfpc) n s.sec.afpc n with
    | singular a => rfl
    | computed a =>
      simp only [call_lastphase, pr1, pf1]
  | dpe_phase =>
    simp only [mps_secular_ga_regenerate_coefficients, hp]
    cases regenerate_rows s.sec.adpc s.sec.bdpc (set_b n s.droot s.sec.bdpc) n s.sec.adpc n with
    | singular a => rfl
    | computed a =>
      simp only [call_lastphase, pr1, pd1]
  | mp_phase =>
    simp only [mps_secular_ga_regenerate_coefficients, hp]
    cases regenerate_rows s.sec.ampc s.sec.bmpc (set_b n s.mroot s.sec.bmpc) n s.sec.ampc n with
    | singular a =>
      simp only [call_lastphase, pr1, pm1]
    | computed a =>
      simp only [call_lastphase, pr1, pm1]

omit [LinearOrderedField R] in
/-- The trace of a regeneration: the advisory alone (float and DPE abort), the advisory
and the two calls (MP abort), or the two calls (success). -/
theorem regenerate_trace (c : Collaborators K R X n) (s : mps_status K R X n) :
    (mps_secular_ga_regenerate_coefficients c s).trace = s.trace ++ [Call.debug_reusing_old] ∨
    (mps_secular_ga_regenerate_coefficients c s).trace =
      s.trace ++ [Call.debug_reusing_old, Call.mstart, Call.set_radii] ∨
    (mps_secular_ga_regenerate_coefficients c s).trace =
      s.trace ++ [Call.fstart, Call.set_radii] ∨
    (mps_secular_ga_regenerate_coefficients c s).trace =
      s.trace ++ [Call.dstart, Call.set_radii] ∨
    (mps_secular_ga_regenerate_coefficients c s).trace =
      s.trace ++ [Call.mstart, Call.set_radii] := by
  cases hp : s.lastphase with
  | float_phase =>
    simp only [mps_secular_ga_regenerate_coefficients, hp]
    cases regenerate_rows s.sec.afpc s.sec.bfpc (set_b n s.froot s.sec.bfpc) n s.sec.afpc n with
    | singular a => exact Or.inl rfl
    | computed a =>
      refine Or.inr (Or.inr (Or.inl ?_))
      simp [call_trace]
  | dpe_phase =>
    simp only [mps_secular_ga_regenerate_coefficients, hp]
    cases regenerate_rows s.sec.adpc s.sec.bdpc (set_b n s.droot s.sec.bdpc) n s.sec.adpc n with
    | singular a => exact Or.inl rfl
    | computed a =>
      refine Or.inr (Or.inr (Or.inr (Or.inl ?_)))
      simp [call_trace]
  | mp_phase =>
    simp only [mps_secular_ga_regenerate_coefficients, hp]
    cases regenerate_rows s.sec.ampc s.sec.bmpc (set_b n s.mroot s.sec.bmpc) n s.sec.ampc n with
    | singular a =>
      refine Or.inr (Or.inl ?_)
      simp [call_trace]
    | computed a =>
      refine Or.inr (Or.inr (Or.inr (Or.inr ?_)))
      simp [call_trace]

omit [LinearOrderedField R] in
/-- A regeneration records no call of `mps_secular_switch_phase`. -/
theorem regenerate_switch_count (c : Collaborators K R X n) (s : mps_status K R X n)
    (p : mps_phase) :
    List.count (Call.switch_phase p) (mps_secular_ga_regenerate_coefficients c s).trace =
      List.count (Call.switch_phase p) s.trace := by
  rcases regenerate_trace c s with h | h | h | h | h <;>
    rw [h, List.count_append] <;> simp

end DriverFrame

/-! ## The driver: rounds -/

section DriverPacket

variable {K R X : Type} [Field K] [LinearOrderedField R] {n : Nat}

theorem mpsolve_packet_lastphase (c : Collaborators K R X n)
    (hn : ∀ ph s i, (c.newton ph s i).1.lastphase = s.lastphase) (d : Driver K R X n) :
    (mpsolve_packet c d).s.lastphase = d.s.lastphase := by
  cases h : d.s.lastphase with
  | float_phase =>
    simp only [mpsolve_packet, h]
    exact (iterate_packet_lastphase c mps_phase.float_phase (hn _) d.s 10).trans h
  | dpe_phase =>
    simp only [mpsolve_packet, h]
    exact (iterate_packet_lastphase c mps_phase.dpe_phase (hn _) d.s 10).trans h
  | mp_phase =>
    simp only [mpsolve_packet, h]
    exact (iterate_packet_lastphase c mps_phase.mp_phase (hn _) d.s 10).trans h

theorem mpsolve_packet_switch_count (c : Collaborators K R X n) (d : Driver K R X n)
    (p : mps_phase) :
    List.count (Call.switch_phase p) (mpsolve_packet c d).s.trace =
      List.count (Call.switch_phase p) d.s.trace := by
  cases h : d.s.lastphase with
  | float_phase =>
    simp only [mpsolve_packet, h]
    exact iterate_packet_switch_count c mps_phase.float_phase d.s 10 p
  | dpe_phase =>
    simp only [mpsolve_packet, h]
    exact iterate_packet_switch_count c mps_phase.dpe_phase d.s 10 p
  | mp_phase =>
    simp only [mpsolve_packet, h]
    exact iterate_packet_switch_count c mps_phase.mp_phase d.s 10 p

theorem mpsolve_packet_packet (c : Collaborators K R X n) (d : Driver K R X n) :
    (mpsolve_packet c d).packet =
      if d.s.lastphase = mps_phase.mp_phase then d.packet else d.packet + 1 := by
  cases h : d.s.lastphase <;> simp [mpsolve_packet, h]

end DriverPacket

section DriverRounds

variable {K R X : Type} [Field K] [DecidableEq K] [LinearOrderedField R] {n : Nat}

/-- The status of a round is the state its packet left when the first stop check
succeeds, and the state after the escalation otherwise. -/
theorem mpsolve_round_state (c : Collaborators K R X n) (d : Driver K R X n) :
    (mpsolve_round c d).state =
      if mps_secular_ga_check_stop c (mpsolve_packet c d).s then (mpsolve_packet c d).s
      else mpsolve_escalate c (mpsolve_packet c d) := by
  unfold mpsolve_round
  simp only
  split
  · rfl
  · split <;> rfl

/-- A round that returns does so with a state on which the stop check succeeds. -/
theorem mpsolve_round_returned (c : Collaborators K R X n) (d : Driver K R X n)
    (s1 : mps_status K R X n) (h : mpsolve_round c d = Round.returned s1) :
    mps_secular_ga_check_stop c s1 = true := by
  unfold mpsolve_round at h
  simp only at h
  split at h
  · rename_i hstop
    injection h with h
    rw [← h]
    exact hstop
  · split at h
    · rename_i hstop
      injection h with h
      rw [← h]
      exact hstop
    · exact Round.noConfusion h

/-- The loop returns only with a state on which the stop check succeeds. -/
theorem mpsolve_rounds_returned (c : Collaborators K R X n) (k : Nat) (d : Driver K R X n)
    (s1 : mps_status K R X n) (h : mpsolve_rounds c k d = Round.returned s1) :
    mps_secular_ga_check_stop c s1 = true := by
  induction k with
  | zero => exact Round.noConfusion h
  | succ k ih =>
    rw [mpsolve_rounds] at h
    cases hk : mpsolve_rounds c k d with
    | returned s2 =>
      rw [hk] at h
      exact ih (hk.trans h)
    | continues d1 =>
      rw [hk] at h
      exact mpsolve_round_returned c d1 s1 h

/-- Rounds compose. -/
theorem mpsolve_rounds_add (c : Collaborators K R X n) (k m : Nat) (d : Driver K R X n) :
    mpsolve_rounds c (k + m) d =
      match mpsolve_rounds c k d with
      | Round.returned s1 => Round.returned s1
      | Round.continues d1 => mpsolve_rounds c m d1 := by
  induction m with
  | zero =>
    cases h : mpsolve_rounds c k d <;> simp [mpsolve_rounds, h]
  | succ m ih =>
    rw [← Nat.add_assoc, mpsolve_rounds, ih]
    cases h : mpsolve_rounds c k d with
    | returned s1 => rfl
    | continues d1 => simp only [mpsolve_rounds]

/-- What a round does to the phase and to the calls of `mps_secular_switch_phase`: either
nothing, or, from a phase other than MP, one switch to the MP phase. -/
theorem mpsolve_round_phase (c : Collaborators K R X n) (hc : phase_discipline c)
    (d : Driver K R X n) :
    ((mpsolve_round c d).state.lastphase = d.s.lastphase ∧
      ∀ p, List.count (Call.switch_phase p) (mpsolve_round c d).state.trace =
        List.count (Call.switch_phase p) d.s.trace) ∨
    (d.s.lastphase ≠ mps_phase.mp_phase ∧
      (mpsolve_round c d).state.lastphase = mps_phase.mp_phase ∧
      List.count (Call.switch_phase mps_phase.mp_phase) (mpsolve_round c d).state.trace =
        List.count (Call.switch_phase mps_phase.mp_phase) d.s.trace + 1 ∧
      ∀ p, p ≠ mps_phase.mp_phase →
        List.count (Call.switch_phase p) (mpsolve_round c d).state.trace =
          List.count (Call.switch_phase p) d.s.trace) := by
  obtain ⟨hsw, hn, hstart, hraise⟩ := hc
  have hl := mpsolve_packet_lastphase c hn d
  have hcount := mpsolve_packet_switch_count c d
  rw [mpsolve_round_state]
  split
  · exact Or.inl ⟨hl, hcount⟩
  · unfold mpsolve_escalate
    split
    · rename_i hcond
      refine Or.inr ⟨hl ▸ hcond.1, ?_, ?_, ?_⟩
      · rw [regenerate_lastphase c hstart, call_lastphase, hsw]
      · rw [regenerate_switch_count, call_trace, List.count_append, hcount]
        simp
      · intro p hp
        have h0 : List.count (Call.switch_phase p)
            [Call.switch_phase mps_phase.mp_phase] = 0 := by
          rw [List.count_eq_zero]
          simp [hp]
        rw [regenerate_switch_count, call_trace, List.count_append, hcount, h0, Nat.add_zero]
    · split
      · refine Or.inl ⟨?_, fun p => ?_⟩
        · rw [regenerate_lastphase c hstart, call_lastphase, hraise, hl]
        · rw [regenerate_switch_count, call_trace, List.count_append, hcount]
          simp
      · exact Or.inl ⟨hl, hcount⟩

/-- The same for any number of rounds: at most one switch, and it leads to the MP
phase. -/
theorem mpsolve_rounds_phase (c : Collaborators K R X n) (hc : phase_discipline c)
    (k : Nat) (d : Driver K R X n) :
    ((mpsolve_rounds c k d).state.lastphase = d.s.lastphase ∧
      ∀ p, List.count (Call.switch_phase p) (mpsolve_rounds c k d).state.trace =
        List.count (Call.switch_phase p) d.s.trace) ∨
    (d.s.lastphase ≠ mps_phase.mp_phase ∧
      (mpsolve_rounds c k d).state.lastphase = mps_phase.mp_phase ∧
      List.count (Call.switch_phase mps_phase.mp_phase) (mpsolve_rounds c k d).state.trace =
        List.count (Call.switch_phase mps_phase.mp_phase) d.s.trace + 1 ∧
      ∀ p, p ≠ mps_phase.mp_phase →
        List.count (Call.switch_phase p) (mpsolve_rounds c k d).state.trace =
          List.count (Call.switch_phase p) d.s.trace) := by
  induction k with
  | zero => exact Or.inl ⟨rfl, fun _ => rfl⟩
  | succ k ih =>
    rw [mpsolve_rounds]
    cases hk : mpsolve_rounds c k d with
    | returned s1 =>
      rw [hk] at ih
      exact ih
    | continues d1 =>
      rw [hk] at ih
      simp only
      have ih1 : (d1.s.lastphase = d.s.lastphase ∧
          ∀ p, List.count (Call.switch_phase p) d1.s.trace =
            List.count (Call.switch_phase p) d.s.trace) ∨
        (d.s.lastphase ≠ mps_phase.mp_phase ∧ d1.s.lastphase = mps_phase.mp_phase ∧
          List.count (Call.switch_phase mps_phase.mp_phase) d1.s.trace =
            List.count (Call.switch_phase mps_phase.mp_phase) d.s.trace + 1 ∧
          ∀ p, p ≠ mps_phase.mp_phase →
            List.count (Call.switch_phase p) d1.s.trace =
              List.count (Call.switch_phase p) d.s.trace) := ih
      rcases mpsolve_round_phase c hc d1 with ⟨r1, r2⟩ | ⟨r1, r2, r3, r4⟩
      · rcases ih1 with ⟨i1, i2⟩ | ⟨i1, i2, i3, i4⟩
        · exact Or.inl ⟨r1.trans i1, fun p => (r2 p).trans (i2 p)⟩
        · exact Or.inr ⟨i1, r1.trans i2, (r2 _).trans i3, fun p hp => (r2 p).trans (i4 p hp)⟩
      · rcases ih1 with ⟨i1, i2⟩ | ⟨i1, i2, i3, i4⟩
        · exact Or.inr ⟨i1 ▸ r1, r2, r3.trans (by rw [i2]),
            fun p hp => (r4 p hp).trans (i2 p)⟩
        · exact absurd i2 r1

end DriverRounds

/-- The state the loop of `mps_secular_ga_mpsolve` is entered with. -/
theorem mpsolve_init_frame {K R X : Type} {n : Nat} (c : Collaborators K R X n)
    (hstart : start_keeps c (fun t => t.lastphase)) (dbl_max : R) (s : mps_status K R X n)
    (phase : mps_phase) :
    (mpsolve_init c dbl_max s phase).s.lastphase = phase ∧
    (mpsolve_init c dbl_max s phase).packet = 0 ∧
    ∀ p, List.count (Call.switch_phase p) (mpsolve_init c dbl_max s phase).s.trace =
      List.count (Call.switch_phase p) s.trace := by
  obtain ⟨pf, pd, pm, pr⟩ := hstart
  have pf1 : ∀ t, (c.mps_secular_fstart t).lastphase = t.lastphase := pf
  have pd1 : ∀ t, (c.mps_secular_dstart t).lastphase = t.lastphase := pd
  have pm1 : ∀ t, (c.mps_secular_mstart t).lastphase = t.lastphase := pm
  have pr1 : ∀ t, (c.mps_secular_set_radii t).lastphase = t.lastphase := pr
  have htr : (for_loop (fun i (t : mps_status K R X n) =>
      { t with frad := Function.update t.frad i dbl_max }) n s).trace = s.trace :=
    for_loop_invariant (fun i (t : mps_status K R X n) =>
      { t with frad := Function.update t.frad i dbl_max })
      (fun _ (t : mps_status K R X n) => t.trace = s.trace) n s rfl (fun _ _ _ ht => ht) n
      (Nat.le_refl n)
  refine ⟨?_, rfl, fun p => ?_⟩
  · cases phase <;> simp [mpsolve_init, call_lastphase, pr1, pf1, pd1, pm1]
  · cases phase <;>
      simp [mpsolve_init, call_trace, List.count_append, htr]

/-! ## The driver: phase monotonicity, postcondition and escalation -/

section DriverClaims

variable {K R X : Type} [Field K] [DecidableEq K] [LinearOrderedField R] {n : Nat}

/-- A round that goes on in a phase other than MP has run one more float or DPE packet,
at most the third, and leaves the state as this packet left it. -/
theorem mpsolve_round_continues (c : Collaborators K R X n) (hc : phase_discipline c)
    (d d1 : Driver K R X n) (h : mpsolve_round c d = Round.continues d1)
    (hmp : d1.s.lastphase ≠ mps_phase.mp_phase) :
    d.s.lastphase ≠ mps_phase.mp_phase ∧ d1 = mpsolve_packet c d ∧
    d1.packet = d.packet + 1 ∧ d1.packet ≤ 3 ∧ d1.roots_computed ≠ n := by
  obtain ⟨hsw, hn, hstart, hraise⟩ := hc
  have hl := mpsolve_packet_lastphase c hn d
  have hpk := mpsolve_packet_packet c d
  unfold mpsolve_round at h
  simp only at h
  split at h
  · exact Round.noConfusion h
  · split at h
    · exact Round.noConfusion h
    · injection h with h
      subst h
      simp only at hmp
      unfold mpsolve_escalate at hmp ⊢
      split at hmp
      · rw [regenerate_lastphase c hstart, call_lastphase, hsw] at hmp
        exact absurd rfl hmp
      · rename_i hcond
        split at hmp
        · rename_i hismp
          rw [regenerate_lastphase c hstart, call_lastphase, hraise] at hmp
          exact absurd hismp hmp
        · rename_i hnotmp
          have hd : d.s.lastphase ≠ mps_phase.mp_phase := hl ▸ hnotmp
          rw [if_neg hcond, if_neg hnotmp]
          rw [if_neg hd] at hpk
          have hnc : ¬ ((mpsolve_packet c d).roots_computed = n ∨
              (mpsolve_packet c d).packet > 3) := fun hor => hcond ⟨hnotmp, hor⟩
          refine ⟨hd, rfl, hpk, ?_, fun e => hnc (Or.inl e)⟩
          show (mpsolve_packet c d).packet ≤ 3
          exact Nat.le_of_not_lt (fun e => hnc (Or.inr e))

/-- While the loop goes on in a phase other than MP, the number of packets run equals
the number of rounds and is at most 3. -/
theorem mpsolve_rounds_continues (c : Collaborators K R X n) (hc : phase_discipline c)
    (k : Nat) (d d1 : Driver K R X n) (h : mpsolve_rounds c k d = Round.continues d1)
    (hmp : d1.s.lastphase ≠ mps_phase.mp_phase) :
    d1.packet = d.packet + k ∧ (1 ≤ k → d1.packet ≤ 3) := by
  induction k generalizing d1 with
  | zero =>
    injection h with h
    subst h
    exact ⟨rfl, fun h0 => absurd h0 (by decide)⟩
  | succ k ih =>
    rw [mpsolve_rounds] at h
    cases hk : mpsolve_rounds c k d with
    | returned s2 =>
      rw [hk] at h
      exact Round.noConfusion h
    | continues d2 =>
      rw [hk] at h
      obtain ⟨h1, _, h3, h4, _⟩ := mpsolve_round_continues c hc d2 d1 h hmp
      obtain ⟨i1, _⟩ := ih d2 hk h1
      exact ⟨by rw [h3, i1, Nat.add_assoc], fun _ => h4⟩

/-- C15: when `mps_secular_switch_phase` sets `lastphase` to the phase it is given and
the other collaborators called in the loop leave `lastphase` alone, then in every run of
`mps_secular_ga_mpsolve` the loop is entered with `lastphase = phase`; after any number
of rounds `lastphase` is the initial phase or MP; no switch to a phase other than MP is
ever requested; and once `lastphase` is MP it is MP after every later round, without a
further switch request. A state the function returns has the initial phase or MP. -/
theorem phase_monotone (c : Collaborators K R X n) (hc : phase_discipline c) (dbl_max : R)
    (s : mps_status K R X n) (phase : mps_phase) :
    (mpsolve_init c dbl_max s phase).s.lastphase = phase ∧
    (∀ k, (mpsolve_rounds c k (mpsolve_init c dbl_max s phase)).state.lastphase = phase ∨
      (mpsolve_rounds c k (mpsolve_init c dbl_max s phase)).state.lastphase =
        mps_phase.mp_phase) ∧
    (∀ k p, p ≠ mps_phase.mp_phase →
      List.count (Call.switch_phase p)
          (mpsolve_rounds c k (mpsolve_init c dbl_max s phase)).state.trace =
        List.count (Call.switch_phase p) s.trace) ∧
    (∀ k m,
      (mpsolve_rounds c k (mpsolve_init c dbl_max s phase)).state.lastphase =
          mps_phase.mp_phase →
        (mpsolve_rounds c (k + m) (mpsolve_init c dbl_max s phase)).state.lastphase =
          mps_phase.mp_phase ∧
        ∀ p, List.count (Call.switch_phase p)
            (mpsolve_rounds c (k + m) (mpsolve_init c dbl_max s phase)).state.trace =
          List.count (Call.switch_phase p)
            (mpsolve_rounds c k (mpsolve_init c dbl_max s phase)).state.trace) ∧
    (∀ fuel s1, mps_secular_ga_mpsolve c dbl_max fuel s phase = some s1 →
      s1.lastphase = phase ∨ s1.lastphase = mps_phase.mp_phase) := by
  obtain ⟨i1, _, i3⟩ := mpsolve_init_frame c hc.2.2.1 dbl_max s phase
  have hk : ∀ k, (mpsolve_rounds c k (mpsolve_init c dbl_max s phase)).state.lastphase = phase ∨
      (mpsolve_rounds c k (mpsolve_init c dbl_max s phase)).state.lastphase =
        mps_phase.mp_phase := by
    intro k
    rcases mpsolve_rounds_phase c hc k (mpsolve_init c dbl_max s phase) with ⟨r1, _⟩ | ⟨_, r2, _⟩
    · exact Or.inl (r1.trans i1)
    · exact Or.inr r2
  refine ⟨i1, hk, ?_, ?_, ?_⟩
  · intro k p hp
    rcases mpsolve_rounds_phase c hc k (mpsolve_init c dbl_max s phase) with
      ⟨_, r2⟩ | ⟨_, _, _, r4⟩
    · exact (r2 p).trans (i3 p)
    · exact (r4 p hp).trans (i3 p)
  · intro k m hmp
    rw [mpsolve_rounds_add]
    cases hr : mpsolve_rounds c k (mpsolve_init c dbl_max s phase) with
    | returned s1 => exact ⟨by rw [hr] at hmp; exact hmp, fun _ => rfl⟩
    | continues d1 =>
      rw [hr] at hmp
      have hmp1 : d1.s.lastphase = mps_phase.mp_phase := hmp
      simp only
      rcases mpsolve_rounds_phase c hc m d1 with ⟨r1, r2⟩ | ⟨r1, _⟩
      · exact ⟨r1.trans hmp1, r2⟩
      · exact absurd hmp1 r1
  · intro fuel s1 h
    unfold mps_secular_ga_mpsolve at h
    have := hk fuel
    cases hr : mpsolve_rounds c fuel (mpsolve_init c dbl_max s phase) with
    | returned s2 =>
      rw [hr] at h this
      injection h with h
      rw [← h]
      exact this
    | continues d1 =>
      rw [hr] at h
      exact Option.noConfusion h

/-- C16: whenever `mps_secular_ga_mpsolve` returns, `mps_secular_ga_check_stop` is true on
the state it returns; in the DPE and MP phases every radius `drad[i]` with `i < n` is then
at most `2^(-prec_out)`. -/
theorem mpsolve_postcondition (c : Collaborators K R X n) (dbl_max : R) (fuel : Nat)
    (s : mps_status K R X n) (phase : mps_phase) (s1 : mps_status K R X n)
    (h : mps_secular_ga_mpsolve c dbl_max fuel s phase = some s1) :
    mps_secular_ga_check_stop c s1 = true ∧
    (s1.lastphase = mps_phase.dpe_phase ∨ s1.lastphase = mps_phase.mp_phase →
      ∀ i < n, s1.drad i ≤ (2 : R) ^ (-s1.prec_out)) := by
  have hstop : mps_secular_ga_check_stop c s1 = true := by
    unfold mps_secular_ga_mpsolve at h
    cases hr : mpsolve_rounds c fuel (mpsolve_init c dbl_max s phase) with
    | returned s2 =>
      rw [hr] at h
      injection h with h
      rw [← h]
      exact mpsolve_rounds_returned c fuel _ s2 hr
    | continues d1 =>
      rw [hr] at h
      exact Option.noConfusion h
  exact ⟨hstop, fun hph => (check_stop_iff_drad c s1 hph).mp hstop⟩

end DriverClaims

/-! ## The driver: escalation -/

/-- In the float phase the stop check fails when `pow(10, -prec_out)` is zero. -/
theorem check_stop_underflow {K R X : Type} [LinearOrderedField R] {n : Nat}
    (c : Collaborators K R X n) (s : mps_status K R X n)
    (hf : s.lastphase = mps_phase.float_phase) (h0 : c.pow10 (-s.prec_out) = 0) :
    mps_secular_ga_check_stop c s = false := by
  simp [mps_secular_ga_check_stop, hf, h0]

section Escalation

variable {K R X : Type} [Field K] [DecidableEq K] [LinearOrderedField R] {n : Nat}

/-- A round started in the MP phase on a state whose radii all meet the target returns
at its first stop check. -/
theorem mpsolve_round_converged (c : Collaborators K R X n) (s : mps_status K R X n)
    (hmp : s.lastphase = mps_phase.mp_phase)
    (hconv : ∀ i < n, s.drad i ≤ (2 : R) ^ (-s.prec_out)) (rc pk : Nat) :
    mpsolve_round c { s := s, roots_computed := rc, packet := pk } =
      Round.returned (mps_secular_ga_miterate c s 10).1 := by
  obtain ⟨_, _, h10⟩ := miterate_converged c s 10 hconv
  have h10' : (mps_secular_ga_miterate c s 10).1 =
      { s with again := (mps_secular_ga_miterate c s 10).1.again } := h10
  have hstop : mps_secular_ga_check_stop c (mps_secular_ga_miterate c s 10).1 = true := by
    rw [check_stop_iff_drad c _ (Or.inr (by rw [h10']; exact hmp)), h10']
    exact hconv
  simp only [mpsolve_round, mpsolve_packet, hmp, hstop, if_true]

/-- C19: when `mps_secular_switch_phase` sets `lastphase` to the phase it is given and the
other collaborators called in the loop leave `lastphase` alone, a run of
`mps_secular_ga_mpsolve` behaves as follows outside the MP phase. A round in
a phase other than MP whose stop check fails goes on with the state as the packet left
it (no switch, no regeneration) when the packet did not return `n` and was at most the
third; it switches to MP and regenerates at once when the packet returned `n` or was the
fourth. While the loop goes on outside the MP phase the number of packets run is the
number of rounds and at most 3, so that from the fifth round on every packet is an MP
packet. A float run for which `pow(10, -prec_out)` is zero returns only in the MP phase,
after exactly one switch. -/
theorem escalation_bound (c : Collaborators K R X n) (hc : phase_discipline c) (dbl_max : R)
    (s : mps_status K R X n) (phase : mps_phase) :
    (∀ d : Driver K R X n, d.s.lastphase ≠ mps_phase.mp_phase →
      mps_secular_ga_check_stop c (mpsolve_packet c d).s = false →
      (mpsolve_packet c d).roots_computed ≠ n → d.packet + 1 ≤ 3 →
        mpsolve_round c d = Round.continues (mpsolve_packet c d) ∧
        (mpsolve_packet c d).s.lastphase = d.s.lastphase ∧
        (mpsolve_packet c d).packet = d.packet + 1) ∧
    (∀ d : Driver K R X n, d.s.lastphase ≠ mps_phase.mp_phase →
      mps_secular_ga_check_stop c (mpsolve_packet c d).s = false →
      ((mpsolve_packet c d).roots_computed = n ∨ 3 < d.packet + 1) →
        (mpsolve_round c d).state =
          mps_secular_ga_regenerate_coefficients c
            (call (Call.switch_phase mps_phase.mp_phase)
              (fun t => c.mps_secular_switch_phase t mps_phase.mp_phase)
              (mpsolve_packet c d).s) ∧
        (mpsolve_round c d).state.lastphase = mps_phase.mp_phase) ∧
    (∀ k d1, mpsolve_rounds c k (mpsolve_init c dbl_max s phase) = Round.continues d1 →
      d1.s.lastphase ≠ mps_phase.mp_phase → d1.packet = k ∧ k ≤ 3) ∧
    (∀ k d1, 4 ≤ k →
      mpsolve_rounds c k (mpsolve_init c dbl_max s phase) = Round.continues d1 →
        d1.s.lastphase = mps_phase.mp_phase) ∧
    (phase = mps_phase.float_phase → ∀ fuel s1,
      mps_secular_ga_mpsolve c dbl_max fuel s phase = some s1 →
      c.pow10 (-s1.prec_out) = 0 →
        s1.lastphase = mps_phase.mp_phase ∧
        List.count (Call.switch_phase mps_phase.mp_phase) s1.trace =
          List.count (Call.switch_phase mps_phase.mp_phase) s.trace + 1) := by
  obtain ⟨i1, i2, i3⟩ := mpsolve_init_frame c hc.2.2.1 dbl_max s phase
  have hcont : ∀ k d1,
      mpsolve_rounds c k (mpsolve_init c dbl_max s phase) = Round.continues d1 →
      d1.s.lastphase ≠ mps_phase.mp_phase → d1.packet = k ∧ k ≤ 3 := by
    intro k d1 h hmp
    obtain ⟨h1, h2⟩ := mpsolve_rounds_continues c hc k _ d1 h hmp
    rw [i2, Nat.zero_add] at h1
    refine ⟨h1, ?_⟩
    rcases Nat.eq_zero_or_pos k with hk | hk
    · omega
    · have := h2 hk
      omega
  refine ⟨?_, ?_, hcont, ?_, ?_⟩
  · intro d hd hfail hrc hpk
    have hl := mpsolve_packet_lastphase c hc.2.1 d
    have hp := mpsolve_packet_packet c d
    rw [if_neg hd] at hp
    have hnm : (mpsolve_packet c d).s.lastphase ≠ mps_phase.mp_phase := hl ▸ hd
    have hcond : ¬ ((mpsolve_packet c d).s.lastphase ≠ mps_phase.mp_phase ∧
        ((mpsolve_packet c d).roots_computed = n ∨ (mpsolve_packet c d).packet > 3)) := by
      rintro ⟨_, h | h⟩
      · exact hrc h
      · omega
    refine ⟨?_, hl, hp⟩
    unfold mpsolve_round
    simp only [hfail, Bool.false_eq_true, if_false]
    unfold mpsolve_escalate
    rw [if_neg hcond, if_neg hnm]
    simp only [hfail, Bool.false_eq_true, if_false]
  · intro d hd hfail hor
    have hl := mpsolve_packet_lastphase c hc.2.1 d
    have hp := mpsolve_packet_packet c d
    rw [if_neg hd] at hp
    have hnm : (mpsolve_packet c d).s.lastphase ≠ mps_phase.mp_phase := hl ▸ hd
    have hcond : (mpsolve_packet c d).s.lastphase ≠ mps_phase.mp_phase ∧
        ((mpsolve_packet c d).roots_computed = n ∨ (mpsolve_packet c d).packet > 3) := by
      refine ⟨hnm, ?_⟩
      rcases hor with h | h
      · exact Or.inl h
      · exact Or.inr (by omega)
    have hst : (mpsolve_round c d).state =
        mps_secular_ga_regenerate_coefficients c
          (call (Call.switch_phase mps_phase.mp_phase)
            (fun t => c.mps_secular_switch_phase t mps_phase.mp_phase)
            (mpsolve_packet c d).s) := by
      rw [mpsolve_round_state]
      simp only [hfail, Bool.false_eq_true, if_false]
      unfold mpsolve_escalate
      rw [if_pos hcond]
    refine ⟨hst, ?_⟩
    rw [hst, regenerate_lastphase c hc.2.2.1, call_lastphase, hc.1]
  · intro k d1 hk h
    by_contra hmp
    have := (hcont k d1 h hmp).2
    omega
  · intro hfloat fuel s1 h h0
    unfold mps_secular_ga_mpsolve at h
    cases hr : mpsolve_rounds c fuel (mpsolve_init c dbl_max s phase) with
    | continues d1 =>
      rw [hr] at h
      exact Option.noConfusion h
    | returned s2 =>
      rw [hr] at h
      injection h with h
      subst h
      have hstop := mpsolve_rounds_returned c fuel _ s2 hr
      have hnf : s2.lastphase ≠ mps_phase.float_phase := by
        intro hf
        rw [check_stop_underflow c s2 hf h0] at hstop
        exact Bool.noConfusion hstop
      have hph := mpsolve_rounds_phase c hc fuel (mpsolve_init c dbl_max s phase)
      rw [hr] at hph
      rcases hph with ⟨r1, _⟩ | ⟨_, r2, r3, _⟩
      · exact absurd (r1.trans (i1.trans hfloat)) hnf
      · exact ⟨r2, r3.trans (by rw [i3])⟩

end Escalation

theorem idle_phase_discipline (n : Nat) : phase_discipline (idle n) := by
  refine ⟨fun _ _ => rfl, fun ph s i => ?_, idle_start_keeps n _, fun _ => rfl⟩
  cases ph <;> rfl

theorem underflow_phase_discipline (n : Nat) : phase_discipline (underflow n) := by
  refine ⟨fun _ _ => rfl, fun ph s i => ?_,
    ⟨fun _ => rfl, fun _ => rfl, fun _ => rfl, fun _ => rfl⟩, fun _ => rfl⟩
  cases ph <;> rfl

theorem mp_stop_state_run :
    mps_secular_ga_mpsolve (idle 1) 1000 1 mp_stop_state mps_phase.mp_phase =
      some (mps_secular_ga_miterate (idle 1)
        (mpsolve_init (idle 1) 1000 mp_stop_state mps_phase.mp_phase).s 10).1 := by
  have hconv : ∀ i < 1,
      (mpsolve_init (idle 1) 1000 mp_stop_state mps_phase.mp_phase).s.drad i ≤
        (2 : ℚ) ^ (-(mpsolve_init (idle 1) 1000 mp_stop_state mps_phase.mp_phase).s.prec_out) := by
    intro i hi
    obtain rfl : i = 0 := by omega
    norm_num [mpsolve_init, call, idle, mp_stop_state, state, arr, for_loop]
  have h := mpsolve_round_converged (idle 1)
    (mpsolve_init (idle 1) 1000 mp_stop_state mps_phase.mp_phase).s rfl hconv 0 0
  unfold mps_secular_ga_mpsolve
  have hr : mpsolve_rounds (idle 1) 1 (mpsolve_init (idle 1) 1000 mp_stop_state
      mps_phase.mp_phase) =
      mpsolve_round (idle 1) (mpsolve_init (idle 1) 1000 mp_stop_state mps_phase.mp_phase) :=
    rfl
  rw [hr]
  have hd : mpsolve_init (idle 1) 1000 mp_stop_state mps_phase.mp_phase =
      { s := (mpsolve_init (idle 1) 1000 mp_stop_state mps_phase.mp_phase).s,
        roots_computed := 0, packet := 0 } := rfl
  rw [hd, h]

/-- Witness of C15 with the collaborators `idle` on `three_roots_state`, started in the
float phase. -/
theorem phase_monotone_witness :
    phase_discipline (idle 3) ∧
    (mpsolve_init (idle 3) 1000 three_roots_state mps_phase.float_phase).s.lastphase =
      mps_phase.float_phase ∧
    ((mpsolve_rounds (idle 3) 5
        (mpsolve_init (idle 3) 1000 three_roots_state mps_phase.float_phase)).state.lastphase =
        mps_phase.float_phase ∨
      (mpsolve_rounds (idle 3) 5
        (mpsolve_init (idle 3) 1000 three_roots_state mps_phase.float_phase)).state.lastphase =
        mps_phase.mp_phase) :=
  ⟨idle_phase_discipline 3,
    (phase_monotone (idle 3) (idle_phase_discipline 3) 1000 three_roots_state
      mps_phase.float_phase).1,
    (phase_monotone (idle 3) (idle_phase_discipline 3) 1000 three_roots_state
      mps_phase.float_phase).2.1 5⟩

/-- Witness of C16 on `mp_stop_state`, started in the MP phase: the run returns in its
first round. -/
theorem mpsolve_postcondition_witness :
    mps_secular_ga_mpsolve (idle 1) 1000 1 mp_stop_state mps_phase.mp_phase =
      some (mps_secular_ga_miterate (idle 1)
        (mpsolve_init (idle 1) 1000 mp_stop_state mps_phase.mp_phase).s 10).1 ∧
    mps_secular_ga_check_stop (idle 1) (mps_secular_ga_miterate (idle 1)
      (mpsolve_init (idle 1) 1000 mp_stop_state mps_phase.mp_phase).s 10).1 = true :=
  ⟨mp_stop_state_run,
    (mpsolve_postcondition (idle 1) 1000 1 mp_stop_state mps_phase.mp_phase _
      mp_stop_state_run).1⟩

/-- Witness of C19: with the collaborators `underflow`, a float round that runs the
fourth packet switches to the MP phase. -/
theorem escalation_bound_witness :
    phase_discipline (underflow 1) ∧
    (mpsolve_round (underflow 1)
      { s := float_underflow_state, roots_computed := 0, packet := 3 }).state.lastphase =
      mps_phase.mp_phase :=
  ⟨underflow_phase_discipline 1,
    ((escalation_bound (underflow 1) (underflow_phase_discipline 1) 1000 float_underflow_state
      mps_phase.float_phase).2.1
      { s := float_underflow_state, roots_computed := 0, packet := 3 } (by decide)
      (check_stop_underflow (underflow 1) _
        (mpsolve_packet_lastphase (underflow 1) (underflow_phase_discipline 1).2.1 _) rfl)
      (Or.inr (by decide))).2⟩

/-! ## Regeneration: abort and collaborator calls -/

section Abort

variable {K R X : Type} [Field K] [DecidableEq K] {n : Nat}

/-- The trace of a regeneration that meets a zero difference. -/
theorem regenerate_trace_abort (c : Collaborators K R X n) (s : mps_status K R X n)
    (hs : ∃ i < n, ∃ j < n, s.root s.lastphase i = s.sec.b s.lastphase j) :
    (mps_secular_ga_regenerate_coefficients c s).trace =
      s.trace ++ (if s.lastphase = mps_phase.mp_phase then
        [Call.debug_reusing_old, Call.mstart, Call.set_radii]
        else [Call.debug_reusing_old]) := by
  have hs1 : ∃ i < n, ∃ j < n,
      set_b n (s.root s.lastphase) (s.sec.b s.lastphase) i = s.sec.b s.lastphase j := by
    obtain ⟨i, hi, j, hj, hij⟩ := hs
    exact ⟨i, hi, j, hj, by rw [set_b_lt n _ _ hi]; exact hij⟩
  obtain ⟨a1, ha1⟩ := regenerate_rows_singular (s.sec.a s.lastphase) (s.sec.b s.lastphase)
    (set_b n (s.root s.lastphase) (s.sec.b s.lastphase)) n (s.sec.a s.lastphase) n hs1
  cases hp : s.lastphase with
  | float_phase =>
    rw [hp] at ha1
    simp only [mps_status.root, mps_secular_equation.a, mps_secular_equation.b] at ha1
    simp [mps_secular_ga_regenerate_coefficients, hp, ha1]
  | dpe_phase =>
    rw [hp] at ha1
    simp only [mps_status.root, mps_secular_equation.a, mps_secular_equation.b] at ha1
    simp [mps_secular_ga_regenerate_coefficients, hp, ha1]
  | mp_phase =>
    rw [hp] at ha1
    simp only [mps_status.root, mps_secular_equation.a, mps_secular_equation.b] at ha1
    simp [mps_secular_ga_regenerate_coefficients, hp, ha1, call_trace]

end Abort

/-- C18 (as the code behaves): in the MP phase the abort branch jumps to
`regenerate_m_exit`, and the calls of `mps_secular_mstart` and `mps_secular_set_radii`
follow that label. On `mp_abort_state`, where `mroot[1] = bmpc[1]`, the regeneration
aborts (it records the advisory) and still calls both routines. -/
theorem regenerate_mp_abort_calls_start :
    mp_abort_state.lastphase = mps_phase.mp_phase ∧
    mp_abort_state.mroot 1 = mp_abort_state.sec.bmpc 1 ∧
    (mps_secular_ga_regenerate_coefficients (idle 2) mp_abort_state).trace =
      mp_abort_state.trace ++ [Call.debug_reusing_old, Call.mstart, Call.set_radii] ∧
    List.count Call.mstart (mps_secular_ga_regenerate_coefficients (idle 2) mp_abort_state).trace
      = 1 ∧
    List.count Call.set_radii
      (mps_secular_ga_regenerate_coefficients (idle 2) mp_abort_state).trace = 1 := by
  have h : (mps_secular_ga_regenerate_coefficients (idle 2) mp_abort_state).trace =
      mp_abort_state.trace ++ [Call.debug_reusing_old, Call.mstart, Call.set_radii] :=
    regenerate_trace_abort (idle 2) mp_abort_state ⟨1, by decide, 1, by decide, rfl⟩
  refine ⟨rfl, rfl, h, ?_, ?_⟩
  · rw [h]; decide
  · rw [h]; decide

/-! ## String duplication -/

/-- C20 (as the code behaves): `mps_strndup` copies the first `min (n, len)` bytes into a
fresh buffer of `min (n, len) + 1` bytes and never writes the terminator. For the source
`"ab"` and `n = 1`, with an allocator that leaves `0xFF` in its buffers, the buffer
returned has 2 bytes, its first byte is that of the source, and its byte at index 1 is
`0xFF`, not NUL. -/
theorem strndup_not_terminated :
    strlen string_ab = 2 ∧
    mps_strndup stale_alloc string_ab 1 = [97, 255] ∧
    (mps_strndup stale_alloc string_ab 1).length = min 1 (strlen string_ab) + 1 ∧
    (mps_strndup stale_alloc string_ab 1).take 1 = string_ab.take 1 ∧
    (mps_strndup stale_alloc string_ab 1).getD (min 1 (strlen string_ab)) 0 = 255 := by
  decide

end MPSolve
